import Mathlib

/-!
# Verification of the cursor-settings-sync settings model

A shallow embedding of `src/cursor_sync/settings_manager.py` and
`src/cursor_sync/gist_client.py` together with proofs about the collector
(`collect_settings`), the applier (`apply_settings`) and the transport lookup
(`find_existing_gist`).

Modelling conventions:
* JSON values are the inductive `Json` below.  Numbers are modelled as
  integers (the repository never manufactures non-integer numbers and no
  claim depends on floats).
* The Python standard library's `json.dumps(x, indent=2)` is modelled by
  `json_dumps`, writing the same two-space pretty layout; string escaping
  is modelled with mandatory escapes only (quote, backslash and control
  characters, the latter via a four-digit hex escape).  `json.loads` is
  modelled by `json_loads`, a strict recursive-descent parser.
* Files are modelled by their full textual content (`FileState`);
  directories by their relevant entry listings (`DirState`).  An I/O error
  while reading is `FileState.ioErr`.
* Python exceptions that escape a function are modelled with `Except PyExn`.
-/

namespace CursorSync

/-- JSON values, the data manipulated by the settings manager.  Objects are
association lists in textual order (Python deduplicates keys on parse; the
dictionary lookup used by the code is modelled by `lookupLast`, which has
exactly the last-key-wins semantics of that deduplication). -/
inductive Json where
  | null
  | bool (b : Bool)
  | num (n : Int)
  | str (s : String)
  | arr (items : List Json)
  | obj (fields : List (String × Json))

/-- The set of characters stripped by Python's `str.strip()` (ASCII part). -/
def isPyWs (c : Char) : Bool :=
  c = ' ' || c = '\t' || c = '\n' || c = '\r' || c = '\x0b' || c = '\x0c'

/-- JSON insignificant whitespace, as accepted by `json.loads`. -/
def isJsonWs (c : Char) : Bool :=
  c = ' ' || c = '\t' || c = '\n' || c = '\r'

def skipWs (cs : List Char) : List Char := cs.dropWhile isJsonWs

/-! ## Line splitting, model of `str.split('\n')` / `'\n'.join` -/

/-- Model of Python `content.split('\n')`. -/
def splitOnNl : List Char → List (List Char)
  | [] => [[]]
  | c :: rest =>
    if c = '\n' then [] :: splitOnNl rest
    else
      match splitOnNl rest with
      | l :: ls => (c :: l) :: ls
      | [] => [[c]]

/-- Model of Python `'\n'.join(lines)`. -/
def joinNl : List (List Char) → List Char
  | [] => []
  | [l] => l
  | l :: ls => l ++ '\n' :: joinNl ls

/-- Model of `line.strip().startswith('//')` (only the leading strip can
influence a two-character prefix test). -/
def commentLine (l : List Char) : Bool :=
  match l.dropWhile isPyWs with
  | '/' :: '/' :: _ => true
  | _ => false

/-- The comment-stripping step of the keybindings reader
(`settings_manager.py` lines 54-56): split on newlines, drop every line whose
stripped form starts with `//`, rejoin with newlines. -/
def removeCommentLines (cs : List Char) : List Char :=
  joinNl ((splitOnNl cs).filter (fun l => !(commentLine l)))

/-! ## Model of `json.dumps(/, indent=2)` -/

/-- Hexadecimal digit character (lowercase), as produced by `json.dumps`
for control-character escapes. -/
def hexDigitChar (n : Nat) : Char :=
  if n < 10 then Char.ofNat (48 + n) else Char.ofNat (87 + n)

/-- Escape of one character inside a JSON string literal. -/
def escChar (c : Char) : List Char :=
  if c = '"' then ['\\', '"']
  else if c = '\\' then ['\\', '\\']
  else if c.toNat < 32 then
    ['\\', 'u', '0', '0', hexDigitChar (c.toNat / 16), hexDigitChar (c.toNat % 16)]
  else [c]

def escChars : List Char → List Char
  | [] => []
  | c :: cs => escChar c ++ escChars cs

/-- Decimal digits of a natural number, most significant first. -/
def natChars (n : Nat) : List Char :=
  if n = 0 then ['0'] else ((Nat.digits 10 n).map Nat.digitChar).reverse

def intChars : Int → List Char
  | .ofNat n => natChars n
  | .negSucc m => '-' :: natChars (m + 1)

/-- Newline plus the two-space-per-level indentation written by
`json.dumps(indent=2)`. -/
def nlIndent (k : Nat) : List Char := '\n' :: List.replicate (2 * k) ' '

mutual

/-- Pretty printer at nesting level `lvl`, mirroring
`json.dumps(x, indent=2)`. -/
def printJson : Json → Nat → List Char
  | .null, _ => ['n', 'u', 'l', 'l']
  | .bool true, _ => ['t', 'r', 'u', 'e']
  | .bool false, _ => ['f', 'a', 'l', 's', 'e']
  | .num n, _ => intChars n
  | .str s, _ => '"' :: (escChars s.data ++ ['"'])
  | .arr [], _ => ['[', ']']
  | .arr (x :: xs), lvl =>
      '[' :: (nlIndent (lvl + 1) ++ printJson x (lvl + 1) ++ printItems xs (lvl + 1) ++
        nlIndent lvl ++ [']'])
  | .obj [], _ => ['{', '}']
  | .obj (kv :: kvs), lvl =>
      '{' :: (nlIndent (lvl + 1) ++ printMember kv (lvl + 1) ++ printMembers kvs (lvl + 1) ++
        nlIndent lvl ++ ['}'])

/-- Remaining array items, each preceded by `",\n<indent>"`. -/
def printItems : List Json → Nat → List Char
  | [], _ => []
  | x :: xs, lvl => ',' :: (nlIndent lvl ++ printJson x lvl ++ printItems xs lvl)

/-- One `"key": value` member. -/
def printMember : String × Json → Nat → List Char
  | (k, v), lvl => '"' :: (escChars k.data ++ ['"', ':', ' '] ++ printJson v lvl)

/-- Remaining object members, each preceded by `",\n<indent>"`. -/
def printMembers : List (String × Json) → Nat → List Char
  | [], _ => []
  | kv :: kvs, lvl => ',' :: (nlIndent lvl ++ printMember kv lvl ++ printMembers kvs lvl)

end

/-- Model of `json.dumps(j, indent=2)`. -/
def json_dumps (j : Json) : String := String.mk (printJson j 0)

/-! ## Model of `json.loads` (strict parser) -/

/-- Value of a hexadecimal digit character. -/
def hexVal (c : Char) : Option Nat :=
  if '0' ≤ c ∧ c ≤ '9' then some (c.toNat - 48)
  else if 'a' ≤ c ∧ c ≤ 'f' then some (c.toNat - 87)
  else if 'A' ≤ c ∧ c ≤ 'F' then some (c.toNat - 55)
  else none

/-- Single-character escapes accepted inside a JSON string literal. -/
def escCode (c : Char) : Option Char :=
  if c = '"' then some '"'
  else if c = '\\' then some '\\'
  else if c = '/' then some '/'
  else if c = 'n' then some '\n'
  else if c = 't' then some '\t'
  else if c = 'r' then some '\r'
  else if c = 'b' then some '\x08'
  else if c = 'f' then some '\x0c'
  else none

/-- Parse the body of a JSON string literal (the opening quote already
consumed), returning the decoded characters and the rest of the input.
Fuel-indexed so that the definition is structurally recursive; each step
consumes at least one input character, so `length + 1` fuel always
suffices. -/
def pStringF : Nat → List Char → Option (List Char × List Char)
  | 0, _ => none
  | _ + 1, [] => none
  | fuel + 1, c :: rest =>
    if c = '"' then some ([], rest)
    else if c = '\\' then
      match rest with
      | [] => none
      | e :: rest2 =>
        if e = 'u' then
          match rest2 with
          | h1 :: h2 :: h3 :: h4 :: rest3 =>
            match hexVal h1, hexVal h2, hexVal h3, hexVal h4 with
            | some a, some b, some x, some d =>
              (pStringF fuel rest3).map
                (fun p => (Char.ofNat (((a * 16 + b) * 16 + x) * 16 + d) :: p.1, p.2))
            | _, _, _, _ => none
          | _ => none
        else
          match escCode e with
          | some d => (pStringF fuel rest2).map (fun p => (d :: p.1, p.2))
          | none => none
    else if c.toNat < 32 then none
    else (pStringF fuel rest).map (fun p => (c :: p.1, p.2))

def pString (cs : List Char) : Option (List Char × List Char) :=
  pStringF (cs.length + 1) cs

def digitVal (c : Char) : Nat := c.toNat - 48

/-- Parse a JSON natural-number literal (at least one digit; a leading zero
is allowed only for the single literal `0`, as in strict JSON). -/
def pNat (cs : List Char) : Option (Nat × List Char) :=
  match cs.takeWhile Char.isDigit with
  | [] => none
  | d :: ds =>
    if d = '0' ∧ ds ≠ [] then none
    else some ((d :: ds).foldl (fun a c => 10 * a + digitVal c) 0,
      cs.dropWhile Char.isDigit)

/-- Parse a JSON integer literal. -/
def pInt : List Char → Option (Int × List Char)
  | [] => none
  | c :: rest =>
    if c = '-' then (pNat rest).map (fun p => (-(p.1 : Int), p.2))
    else (pNat (c :: rest)).map (fun p => ((p.1 : Int), p.2))

mutual

/-- Parse one JSON value from whitespace-free input, fuel-indexed. -/
def pValCore : Nat → List Char → Option (Json × List Char)
  | 0, _ => none
  | fuel + 1, cs =>
    match cs with
    | [] => none
    | c :: rest =>
      if c = 'n' then
        match rest with
        | 'u' :: 'l' :: 'l' :: r => some (.null, r)
        | _ => none
      else if c = 't' then
        match rest with
        | 'r' :: 'u' :: 'e' :: r => some (.bool true, r)
        | _ => none
      else if c = 'f' then
        match rest with
        | 'a' :: 'l' :: 's' :: 'e' :: r => some (.bool false, r)
        | _ => none
      else if c = '"' then
        (pString rest).map (fun p => (.str (String.mk p.1), p.2))
      else if c = '[' then
        match skipWs rest with
        | [] => none
        | d :: r2 =>
          if d = ']' then some (.arr [], r2)
          else (pElems fuel (d :: r2)).map (fun p => (.arr p.1, p.2))
      else if c = '{' then
        match skipWs rest with
        | [] => none
        | d :: r2 =>
          if d = '}' then some (.obj [], r2)
          else (pMembersCore fuel (d :: r2)).map (fun p => (.obj p.1, p.2))
      else
        (pInt (c :: rest)).map (fun p => (.num p.1, p.2))

/-- Parse a non-empty comma-separated list of array elements plus the
closing bracket. -/
def pElems : Nat → List Char → Option (List Json × List Char)
  | 0, _ => none
  | fuel + 1, cs =>
    match pValCore fuel (skipWs cs) with
    | none => none
    | some (x, r) =>
      match skipWs r with
      | [] => none
      | c :: r2 =>
        if c = ',' then (pElems fuel r2).map (fun p => (x :: p.1, p.2))
        else if c = ']' then some ([x], r2)
        else none

/-- Parse a non-empty comma-separated list of object members plus the
closing brace, from whitespace-free input. -/
def pMembersCore : Nat → List Char → Option (List (String × Json) × List Char)
  | 0, _ => none
  | fuel + 1, cs =>
    match cs with
    | [] => none
    | c :: rest =>
      if c = '"' then
        match pString rest with
        | none => none
        | some (k, r2) =>
          match skipWs r2 with
          | ':' :: r3 =>
            match pValCore fuel (skipWs r3) with
            | none => none
            | some (v, r4) =>
              match skipWs r4 with
              | [] => none
              | d :: r5 =>
                if d = ',' then
                  (pMembersCore fuel (skipWs r5)).map (fun p => ((String.mk k, v) :: p.1, p.2))
                else if d = '}' then some ([(String.mk k, v)], r5)
                else none
          | _ => none
      else none

end

/-- Parse one JSON value, skipping leading whitespace. -/
def pVal (fuel : Nat) (cs : List Char) : Option (Json × List Char) :=
  pValCore fuel (skipWs cs)

/-- Model of `json.loads`: parse a complete document, allowing surrounding
whitespace only.  (Restriction of the model: numbers are integers.) -/
def json_loads (s : String) : Option Json :=
  match pVal (s.data.length + 1) s.data with
  | some (j, rest) => if rest.all isJsonWs then some j else none
  | none => none

/-! ## Filesystem and data model -/

/-- State of one file as seen by the code: absent (`os.path.exists` false),
present but raising `IOError` on open/read, or readable with content. -/
inductive FileState where
  | missing
  | ioErr
  | readable (content : String)

/-- One entry of the extensions directory as enumerated by `iterdir()`. -/
structure ExtEntry where
  name : String
  isDir : Bool
  packageJson : FileState

/-- State of a scanned directory: absent, raising during the scan, or a
listing of entries in enumeration order. -/
inductive DirState (α : Type) where
  | missing
  | scanErr
  | entries (items : List α)

/-- The local Cursor state touched by the settings manager.  Snippet files
are keyed by their stem (file name without the `.json` suffix), matching the
`glob("*.json")` enumeration.  `dirs` records directories known to exist
(targets of `os.makedirs`). -/
structure FS where
  settingsFile : FileState
  keybindingsFile : FileState
  extensionsDir : DirState ExtEntry
  snippetsDir : DirState (String × FileState)
  dirs : List String

/-- The snapshot dictionary built by `collect_settings` (and, on pull,
deserialized from the gist).  All six fields hold arbitrary JSON values;
`apply_settings` only reads them via `.get`, for which an absent key and a
JSON `null` are observationally identical, so absence is modelled by
`Json.null`. -/
structure Snapshot where
  version : Json
  platform : Json
  settings : Json
  keybindings : Json
  extensions : Json
  snippets : Json

/-- `config.VERSION`. -/
def VERSION : String := "1.0"

/-- `config.GIST_DESCRIPTION`. -/
def GIST_DESCRIPTION : String := "Cursor Editor Settings Sync"

/-- Python truthiness of a JSON value (`if settings.get(...)`). -/
def Json.truthy : Json → Bool
  | .null => false
  | .bool b => b
  | .num n => n != 0
  | .str s => !s.isEmpty
  | .arr xs => !xs.isEmpty
  | .obj kvs => !kvs.isEmpty

/-- Whether a JSON value is an object (a Python `dict`, supporting `.get`). -/
def Json.isObjB : Json → Bool
  | .obj _ => true
  | _ => false

/-- Last-occurrence lookup in an association list.  Python's `json.loads`
deduplicates repeated keys with last-wins semantics, so `dict.get` on a
parsed object is last-occurrence lookup on the textual member list. -/
def lookupLast : List (String × Json) → String → Option Json
  | [], _ => none
  | kv :: rest, k =>
    match lookupLast rest k with
    | some v => some v
    | none => if kv.1 == k then some kv.2 else none

/-- Model of `package_data.get(key, default)`. -/
def jsonGet (fields : List (String × Json)) (k : String) (dflt : Json) : Json :=
  (lookupLast fields k).getD dflt

/-- Python dict assignment `m[k] = v`: replace in place if the key is
present, otherwise append. -/
def upsert {α : Type} : List (String × α) → String → α → List (String × α)
  | [], k, v => [(k, v)]
  | kv :: rest, k, v =>
    if kv.1 == k then (kv.1, v) :: rest else kv :: upsert rest k v

/-! ## Collector (`collect_settings`, settings_manager.py lines 19-126) -/

/-- Result of the comment-tolerant keybindings reader. -/
inductive CommentJsonResult where
  | noContent
  | parsed (j : Json)
  | parseError

/-- The comment-tolerant JSON reader (settings_manager.py lines 52-62):
strip `//` lines, then if nothing but whitespace remains report "no
content", otherwise parse strictly. -/
def readCommentJson (s : String) : CommentJsonResult :=
  let cleaned := removeCommentLines s.data
  if cleaned.all isPyWs then .noContent
  else
    match json_loads (String.mk cleaned) with
    | some j => .parsed j
    | none => .parseError

/-- The extensions-directory scan (settings_manager.py lines 70-102).
Non-directories are skipped.  A missing or unreadable or unparseable
`package.json` degrades the entry to `{name}`.  A `package.json` that parses
to a non-object makes `package_data.get` raise `AttributeError`, which is
caught only by the outer `except Exception`, aborting the scan: entries
collected so far are kept, the rest of the listing is never reached. -/
def scanExtensions : List ExtEntry → List Json
  | [] => []
  | e :: rest =>
    if e.isDir then
      match e.packageJson with
      | .missing => Json.obj [("name", .str e.name)] :: scanExtensions rest
      | .ioErr => Json.obj [("name", .str e.name)] :: scanExtensions rest
      | .readable s =>
        match json_loads s with
        | none => Json.obj [("name", .str e.name)] :: scanExtensions rest
        | some (Json.obj fields) =>
          Json.obj [("name", jsonGet fields "name" (.str e.name)),
            ("version", jsonGet fields "version" (.str "unknown")),
            ("publisher", jsonGet fields "publisher" (.str "unknown"))] :: scanExtensions rest
        | some _ => []
    else scanExtensions rest

/-- The snippets-directory scan (settings_manager.py lines 105-121): each
readable, well-formed `*.json` file contributes its stem and parsed content;
unreadable or malformed files are skipped. -/
def scanSnippets : List (String × FileState) → List (String × Json) → List (String × Json)
  | [], acc => acc
  | (stem, st) :: rest, acc =>
    match st with
    | .readable s =>
      match json_loads s with
      | some j => scanSnippets rest (upsert acc stem j)
      | none => scanSnippets rest acc
    | _ => scanSnippets rest acc

/-- `collect_settings()`: gather the four sub-resources, degrading each
independently to its zero value.  `sys` is `platform.system()`. -/
def collect_settings (sys : String) (fs : FS) : Snapshot where
  version := .str VERSION
  platform := .str sys
  settings :=
    match fs.settingsFile with
    | .readable s => (json_loads s).getD (Json.obj [])
    | _ => Json.obj []
  keybindings :=
    match fs.keybindingsFile with
    | .readable s =>
      match readCommentJson s with
      | .parsed j => j
      | _ => Json.obj []
    | _ => Json.obj []
  extensions :=
    match fs.extensionsDir with
    | .entries es => Json.arr (scanExtensions es)
    | _ => Json.arr []
  snippets :=
    match fs.snippetsDir with
    | .entries files => Json.obj (scanSnippets files [])
    | _ => Json.obj []

/-! ## Applier (`apply_settings`, settings_manager.py lines 129-203) -/

/-- The four resolved Cursor paths (`get_cursor_paths()`). -/
structure CursorPaths where
  settings : String
  keybindings : String
  extensions : String
  snippets : String

/-- Model of `os.path.dirname` (POSIX separator). -/
def dirname (s : String) : String :=
  match s.data.reverse.dropWhile (fun c => c != '/') with
  | [] => ""
  | _ :: t => String.mk t.reverse

/-- `os.makedirs(d, exist_ok=True)` on the directory set: idempotent. -/
def addDir (dirs : List String) (d : String) : List String :=
  if d ∈ dirs then dirs else dirs ++ [d]

/-- Which I/O operations fail in a given run (injected environment:
`open(..., "w")` raising `IOError`, `os.makedirs`/`Path.mkdir` raising
`OSError`). -/
structure WriteEnv where
  settingsOpenFails : Bool
  keybindingsOpenFails : Bool
  snippetOpenFails : String → Bool
  mkdirSettingsParentFails : Bool
  mkdirKeybindingsParentFails : Bool
  mkdirSnippetsParentFails : Bool
  mkdirSnippetsDirFails : Bool

/-- A Python exception escaping `apply_settings`. -/
inductive PyExn where
  | osError
  | typeError

/-- The keybindings file text written by the applier (lines 159-162): the
fixed comment line, then the pretty serialization. -/
def kbText (j : Json) : String := "// Empty\n" ++ json_dumps j

/-- Entry listing of the snippets directory after `mkdir(exist_ok=True,
parents=True)`. -/
def ensureDirEntries : DirState (String × FileState) → List (String × FileState)
  | .entries l => l
  | _ => []

/-- The per-snippet write loop (lines 176-186): an `IOError` on one file is
recorded in the aggregate flag and the loop continues. -/
def applySnippetFiles (env : WriteEnv) :
    List (String × Json) → List (String × FileState) → Bool →
      List (String × FileState) × Bool
  | [], files, succ => (files, succ)
  | (name, content) :: rest, files, succ =>
    if env.snippetOpenFails name then applySnippetFiles env rest files false
    else applySnippetFiles env rest (upsert files name (.readable (json_dumps content))) succ

/-- The extensions report (lines 191-196): nothing is written; iterating a
truthy non-list value, or calling `.get` on a non-dict element, raises. -/
def finishExtensions (ext : Json) (fs : FS) (succ : Bool) : Except PyExn (FS × Bool) :=
  if ext.truthy then
    match ext with
    | .arr items => if items.all Json.isObjB then .ok (fs, succ) else .error .typeError
    | _ => .error .typeError
  else .ok (fs, succ)

/-- `apply_settings(settings)`: ensure the three parent directories exist
(lines 136-140, *not* inside any `try`), then write each truthy sub-resource,
catching per-file `IOError` into the aggregate `success` flag.  A truthy
non-dict `snippets` value makes `len`/`.items()` raise (uncaught). -/
def apply_settings (paths : CursorPaths) (env : WriteEnv) (snap : Snapshot) (fs : FS) :
    Except PyExn (FS × Bool) :=
  if env.mkdirSettingsParentFails then .error .osError
  else
    let fsA : FS := { fs with dirs := addDir fs.dirs (dirname paths.settings) }
    if env.mkdirKeybindingsParentFails then .error .osError
    else
      let fsB : FS := { fsA with dirs := addDir fsA.dirs (dirname paths.keybindings) }
      if env.mkdirSnippetsParentFails then .error .osError
      else
        let fsC : FS := { fsB with dirs := addDir fsB.dirs (dirname paths.snippets) }
        let step1 : FS × Bool :=
          if snap.settings.truthy then
            if env.settingsOpenFails then (fsC, false)
            else ({ fsC with settingsFile := .readable (json_dumps snap.settings) }, true)
          else (fsC, true)
        let step2 : FS × Bool :=
          if snap.keybindings.truthy then
            if env.keybindingsOpenFails then (step1.1, false)
            else ({ step1.1 with keybindingsFile := .readable (kbText snap.keybindings) }, step1.2)
          else step1
        if snap.snippets.truthy then
          match snap.snippets with
          | .obj kvs =>
            if env.mkdirSnippetsDirFails then .error .osError
            else
              let written := applySnippetFiles env kvs (ensureDirEntries step2.1.snippetsDir) step2.2
              finishExtensions snap.extensions
                { step2.1 with
                  snippetsDir := .entries written.1
                  dirs := addDir step2.1.dirs paths.snippets } written.2
          | _ => .error .typeError
        else finishExtensions snap.extensions step2.1 step2.2

/-! ## Transport lookup (`find_existing_gist`, gist_client.py lines 33-55) -/

/-- One remote gist as returned by the listing call: `gist.get("description")`
(possibly absent) and `gist["id"]`. -/
structure GistEntry where
  description : Option String
  id : String

/-- `find_existing_gist(token)`: list the remote gists; return the id of the
first whose description equals `GIST_DESCRIPTION`; `None` both when nothing
matches and when the listing call raises. -/
def find_existing_gist (resp : Except Unit (List GistEntry)) : Option String :=
  match resp with
  | .error _ => none
  | .ok gists => (gists.find? (fun g => g.description == some GIST_DESCRIPTION)).map (fun g => g.id)

/-! ## Auxiliary definitions for the proofs -/

/-- A line whose first non-whitespace character exists and is not `/`. -/
def solidLine (l : List Char) : Bool :=
  match l.dropWhile isPyWs with
  | [] => false
  | c :: _ => c != '/'

/-- All lines of `cs` are solid. -/
def SL (cs : List Char) : Prop := ∀ l ∈ splitOnNl cs, solidLine l = true

/-- The trailing context after a printed value never starts with a digit, so
number parsing cannot overrun. -/
def headNotDigit (b : List Char) : Prop :=
  ∀ c, b.head? = some c → c.isDigit = false

/-! ## Fuel bounds for parsing a printed value -/

mutual

def jsizeV : Json → Nat
  | .null => 1
  | .bool _ => 1
  | .num _ => 1
  | .str _ => 1
  | .arr xs => 1 + jsizeL xs
  | .obj kvs => 1 + jsizeM kvs

def jsizeL : List Json → Nat
  | [] => 0
  | x :: xs => 1 + jsizeV x + jsizeL xs

def jsizeM : List (String × Json) → Nat
  | [] => 0
  | (_, v) :: kvs => 1 + jsizeV v + jsizeM kvs

end

/-- The failure-free write environment. -/
def noFailEnv : WriteEnv :=
  ⟨false, false, fun _ => false, false, false, false, false⟩

/-- A scratch root: nothing exists yet. -/
def scratchFS : FS := ⟨.missing, .missing, .missing, .missing, []⟩

/-- First-match lookup in a directory listing or dictionary. -/
def lookupFirst {α : Type} (m : List (String × α)) (k : String) : Option α :=
  (m.find? (fun kv => kv.1 == k)).map Prod.snd

/-- The local state after the three unconditional `os.makedirs` calls and the
settings/keybindings writes of `apply_settings`. -/
def applyStage2FS (paths : CursorPaths) (env : WriteEnv) (snap : Snapshot) (fs : FS) : FS :=
  { fs with
    dirs := addDir (addDir (addDir fs.dirs (dirname paths.settings))
      (dirname paths.keybindings)) (dirname paths.snippets)
    settingsFile :=
      if snap.settings.truthy && !env.settingsOpenFails then
        .readable (json_dumps snap.settings)
      else fs.settingsFile
    keybindingsFile :=
      if snap.keybindings.truthy && !env.keybindingsOpenFails then
        .readable (kbText snap.keybindings)
      else fs.keybindingsFile }

/-- The aggregate `success` flag after the settings/keybindings writes. -/
def applyStage2Succ (env : WriteEnv) (snap : Snapshot) : Bool :=
  !(snap.settings.truthy && env.settingsOpenFails) &&
    !(snap.keybindings.truthy && env.keybindingsOpenFails)

/-- A concrete set of resolved Cursor paths for concrete runs. -/
def paths0 : CursorPaths :=
  ⟨"/r/User/settings.json", "/r/User/keybindings.json", "/r/ext", "/r/User/snippets"⟩

/-- A local state rich enough that all three writable sub-resources are
truthy when collected. -/
def fsRich : FS :=
  ⟨FileState.readable "\x7b\"a\": 1\x7d", FileState.readable "[\x7b\"key\": \"a\"\x7d]",
    DirState.missing, DirState.entries [("py", FileState.readable "\x7b\"b\": 2\x7d")], []⟩

/-! ## Lemmas: line splitting -/

theorem splitOnNl_ne_nil (cs : List Char) : splitOnNl cs ≠ [] := by
  cases cs with
  | nil => simp [splitOnNl]
  | cons c rest =>
    simp only [splitOnNl]
    split
    · simp
    · split <;> simp

theorem splitOnNl_cons_of_ne (c : Char) (cs : List Char) (h : c ≠ '\n') :
    splitOnNl (c :: cs) = (c :: (splitOnNl cs).headI) :: (splitOnNl cs).tail := by
  simp only [splitOnNl, if_neg h]
  rcases hs : splitOnNl cs with _ | ⟨l, ls⟩
  · exact absurd hs (splitOnNl_ne_nil cs)
  · simp

theorem splitOnNl_cons_nl (cs : List Char) : splitOnNl ('\n' :: cs) = [] :: splitOnNl cs := by
  simp [splitOnNl]

/-- A newline-free string splits into a single line. -/
theorem splitOnNl_noNl (cs : List Char) (h : ∀ c ∈ cs, c ≠ '\n') : splitOnNl cs = [cs] := by
  induction cs with
  | nil => rfl
  | cons c rest ih =>
    have hc : c ≠ '\n' := h c (by simp)
    rw [splitOnNl_cons_of_ne c rest hc, ih (fun x hx => h x (by simp [hx]))]
    simp

/-- Splitting concatenates across an explicit newline. -/
theorem splitOnNl_append_nl (a c : List Char) :
    splitOnNl (a ++ '\n' :: c) = splitOnNl a ++ splitOnNl c := by
  induction a with
  | nil => simp [splitOnNl_cons_nl, splitOnNl]
  | cons x a ih =>
    by_cases hx : x = '\n'
    · subst hx
      simp only [List.cons_append, splitOnNl_cons_nl, ih, List.cons_append]
    · rw [List.cons_append, splitOnNl_cons_of_ne x _ hx, splitOnNl_cons_of_ne x a hx, ih]
      rcases ha : splitOnNl a with _ | ⟨l, ls⟩
      · exact absurd ha (splitOnNl_ne_nil a)
      · simp [List.headI]

/-- Prepending a newline-free block extends the first line. -/
theorem splitOnNl_append_noNl (a b : List Char) (h : ∀ c ∈ a, c ≠ '\n') :
    splitOnNl (a ++ b) = (a ++ (splitOnNl b).headI) :: (splitOnNl b).tail := by
  induction a with
  | nil =>
    rcases hb : splitOnNl b with _ | ⟨l, ls⟩
    · exact absurd hb (splitOnNl_ne_nil b)
    · simp [hb]
  | cons x a ih =>
    have hx : x ≠ '\n' := h x (by simp)
    rw [List.cons_append, splitOnNl_cons_of_ne x _ hx, ih (fun c hc => h c (by simp [hc]))]
    simp

/-- Appending a newline-free block extends the last line. -/
theorem splitOnNl_append_noNl_right (a s : List Char) (h : ∀ c ∈ s, c ≠ '\n') :
    splitOnNl (a ++ s) =
      (splitOnNl a).dropLast ++ [(splitOnNl a).getLastD [] ++ s] := by
  induction a with
  | nil => simp [splitOnNl_noNl s h, splitOnNl]
  | cons x a ih =>
    rcases ha : splitOnNl a with _ | ⟨l, ls⟩
    · exact absurd ha (splitOnNl_ne_nil a)
    · by_cases hx : x = '\n'
      · subst hx
        rw [List.cons_append, splitOnNl_cons_nl, ih, splitOnNl_cons_nl, ha]
        simp [List.getLastD_cons]
      · rw [List.cons_append, splitOnNl_cons_of_ne x _ hx, ih,
          splitOnNl_cons_of_ne x a hx, ha]
        rcases ls with _ | ⟨l2, ls2⟩
        · simp
        · simp [List.getLastD_cons]

theorem joinNl_splitOnNl (cs : List Char) : joinNl (splitOnNl cs) = cs := by
  induction cs with
  | nil => rfl
  | cons c rest ih =>
    by_cases hc : c = '\n'
    · subst hc
      rw [splitOnNl_cons_nl]
      rcases hs : splitOnNl rest with _ | ⟨l, ls⟩
      · exact absurd hs (splitOnNl_ne_nil rest)
      · rw [hs] at ih; simpa [joinNl] using ih
    · rw [splitOnNl_cons_of_ne c rest hc]
      rcases hs : splitOnNl rest with _ | ⟨l, ls⟩
      · exact absurd hs (splitOnNl_ne_nil rest)
      · rw [hs] at ih
        rcases ls with _ | ⟨l2, ls2⟩ <;> simpa [joinNl] using congrArg (c :: ·) ih

/-! ## Lemmas: solid lines (no line of pretty-printed JSON is a comment) -/


theorem dropWhile_append_of_all {p : Char → Bool} (sp l : List Char)
    (h : ∀ c ∈ sp, p c = true) : (sp ++ l).dropWhile p = l.dropWhile p := by
  induction sp with
  | nil => rfl
  | cons c sp ih =>
    rw [List.cons_append, List.dropWhile_cons, if_pos (h c (by simp))]
    exact ih (fun x hx => h x (by simp [hx]))

theorem dropWhile_cons_of_neg {p : Char → Bool} (c : Char) (l : List Char)
    (h : p c = false) : (c :: l).dropWhile p = c :: l := by
  rw [List.dropWhile_cons, if_neg (by simp [h])]

theorem solidLine_append (l x : List Char) (h : solidLine l = true) :
    solidLine (l ++ x) = true := by
  unfold solidLine at h ⊢
  rcases hd : l.dropWhile isPyWs with _ | ⟨c, t⟩
  · rw [hd] at h; exact absurd h (by simp)
  · rw [hd] at h
    have : (l ++ x).dropWhile isPyWs = c :: (t ++ x) := by
      have hsplit : l = l.takeWhile isPyWs ++ l.dropWhile isPyWs :=
        (List.takeWhile_append_dropWhile (p := isPyWs) (l := l)).symm
      rw [hsplit, hd, List.append_assoc]
      rw [dropWhile_append_of_all _ _ (fun y hy => List.mem_takeWhile_imp hy)]
      have hc : isPyWs c = false := by
        have := List.head?_dropWhile_not isPyWs l
        rw [hd] at this; simpa using this
      simp [dropWhile_cons_of_neg c _ hc]
    rw [this]
    exact h

theorem solidLine_cons (c : Char) (t : List Char) (hws : isPyWs c = false)
    (hc : c ≠ '/') : solidLine (c :: t) = true := by
  unfold solidLine
  rw [dropWhile_cons_of_neg c t hws]
  simp [hc]

/-- Gluing two solid blocks across a pretty-printer newline-plus-indent. -/
theorem SL_glue_nl (a b : List Char) (k : Nat) (ha : SL a) (hb : SL b) :
    SL (a ++ (nlIndent k ++ b)) := by
  intro l hl
  rw [show a ++ (nlIndent k ++ b) = a ++ '\n' :: (List.replicate (2 * k) ' ' ++ b) by
        simp [nlIndent],
      splitOnNl_append_nl] at hl
  rcases List.mem_append.mp hl with h | h
  · exact ha l h
  · rw [splitOnNl_append_noNl _ b (fun c hc => by
        have : c = ' ' := List.eq_of_mem_replicate hc
        simp [this])] at h
    rcases List.mem_cons.mp h with h | h
    · rcases hs : splitOnNl b with _ | ⟨hl0, tl0⟩
      · exact absurd hs (splitOnNl_ne_nil b)
      · have h0 : solidLine hl0 = true := hb hl0 (by rw [hs]; simp)
        subst h
        unfold solidLine
        rw [dropWhile_append_of_all _ _ (fun c hc => by
          have : c = ' ' := List.eq_of_mem_replicate hc
          simp [this, isPyWs])]
        rw [hs]
        unfold solidLine at h0
        simpa [List.headI] using h0
    · rcases hs : splitOnNl b with _ | ⟨hl0, tl0⟩
      · exact absurd hs (splitOnNl_ne_nil b)
      · rw [hs] at h
        exact hb l (by rw [hs]; exact List.mem_cons_of_mem _ h)

/-- Appending a newline-free suffix preserves solidity of all lines. -/
theorem SL_append_noNl (a s : List Char) (hs : ∀ c ∈ s, c ≠ '\n') (ha : SL a) :
    SL (a ++ s) := by
  intro l hl
  rw [splitOnNl_append_noNl_right a s hs] at hl
  rcases List.mem_append.mp hl with h | h
  · exact ha l (List.dropLast_subset _ h)
  · have hl' : l = (splitOnNl a).getLastD [] ++ s := by simpa using h
    subst hl'
    apply solidLine_append
    apply ha
    rcases hsa : splitOnNl a with _ | ⟨x, xs⟩
    · exact absurd hsa (splitOnNl_ne_nil a)
    · rw [List.getLastD_cons]
      exact List.getLastD_mem_cons xs x

/-- A single newline-free solid line is `SL`. -/
theorem SL_single (s : List Char) (hnl : ∀ c ∈ s, c ≠ '\n') (hs : solidLine s = true) :
    SL s := by
  intro l hl
  rw [splitOnNl_noNl s hnl] at hl
  have : l = s := by simpa using hl
  rw [this]
  exact hs

/-- Prepending a newline-free block whose presence makes any line solid. -/
theorem SL_prepend_noNl (pre b : List Char) (hnl : ∀ c ∈ pre, c ≠ '\n')
    (hhead : ∀ x, solidLine (pre ++ x) = true) (hb : SL b) : SL (pre ++ b) := by
  intro l hl
  rw [splitOnNl_append_noNl pre b hnl] at hl
  rcases List.mem_cons.mp hl with h | h
  · rw [h]; exact hhead _
  · rcases hs : splitOnNl b with _ | ⟨hl0, tl0⟩
    · exact absurd hs (splitOnNl_ne_nil b)
    · rw [hs] at h
      exact hb l (by rw [hs]; exact List.mem_cons_of_mem _ h)

/-! ## Lemmas: character classes of printed JSON -/

theorem isDigit_ne (c : Char) (h : c.isDigit = true) (d : Char) (hd : d.isDigit = false) :
    c ≠ d := by
  intro e
  rw [e, hd] at h
  exact absurd h (by simp)

theorem isDigit_not_pyWs (c : Char) (h : c.isDigit = true) : isPyWs c = false := by
  by_contra hc
  have hc' : isPyWs c = true := by simpa using hc
  simp only [isPyWs, Bool.or_eq_true, decide_eq_true_eq] at hc'
  rcases hc' with ((((e | e) | e) | e) | e) | e <;> rw [e] at h <;> exact absurd h (by decide)

theorem isDigit_not_jsonWs (c : Char) (h : c.isDigit = true) : isJsonWs c = false := by
  by_contra hc
  have hc' : isJsonWs c = true := by simpa using hc
  simp only [isJsonWs, Bool.or_eq_true, decide_eq_true_eq] at hc'
  rcases hc' with ((e | e) | e) | e <;> rw [e] at h <;> exact absurd h (by decide)

theorem hexDigitChar_ok : ∀ m, m < 16 →
    hexDigitChar m ≠ '\n' ∧ isPyWs (hexDigitChar m) = false := by decide

theorem digitChar_digit : ∀ d, d < 10 → (Nat.digitChar d).isDigit = true := by decide

theorem natChars_all_digits (n : Nat) : ∀ c ∈ natChars n, c.isDigit = true := by
  intro c hc
  unfold natChars at hc
  split at hc
  · have : c = '0' := by simpa using hc
    rw [this]; decide
  · rw [List.mem_reverse, List.mem_map] at hc
    obtain ⟨d, hd, rfl⟩ := hc
    exact digitChar_digit d (Nat.digits_lt_base (by norm_num) hd)

theorem natChars_ne_nil (n : Nat) : natChars n ≠ [] := by
  unfold natChars
  split
  · simp
  · simp only [ne_eq, List.reverse_eq_nil_iff, List.map_eq_nil_iff]
    exact Nat.digits_ne_nil_iff_ne_zero.mpr (by assumption)

theorem noNl_natChars (n : Nat) : ∀ c ∈ natChars n, c ≠ '\n' :=
  fun c hc => isDigit_ne c (natChars_all_digits n c hc) '\n' (by decide)

theorem noNl_intChars (i : Int) : ∀ c ∈ intChars i, c ≠ '\n' := by
  intro c hc
  cases i with
  | ofNat n => exact noNl_natChars n c hc
  | negSucc m =>
    rcases List.mem_cons.mp hc with h | h
    · rw [h]; decide
    · exact noNl_natChars (m + 1) c h

theorem solidLine_natChars (n : Nat) (x : List Char) : solidLine (natChars n ++ x) = true := by
  rcases hn : natChars n with _ | ⟨c, t⟩
  · exact absurd hn (natChars_ne_nil n)
  · have hd : c.isDigit = true := natChars_all_digits n c (by rw [hn]; simp)
    rw [List.cons_append]
    exact solidLine_cons c _ (isDigit_not_pyWs c hd) (isDigit_ne c hd '/' (by decide))

theorem solidLine_intChars (i : Int) (x : List Char) : solidLine (intChars i ++ x) = true := by
  cases i with
  | ofNat n => exact solidLine_natChars n x
  | negSucc m =>
    rw [show intChars (Int.negSucc m) = '-' :: natChars (m + 1) from rfl, List.cons_append]
    exact solidLine_cons '-' _ (by decide) (by decide)

theorem noNl_escChar (c : Char) : ∀ x ∈ escChar c, x ≠ '\n' := by
  intro x hx
  by_cases h1 : c = '"'
  · rw [escChar, if_pos h1] at hx
    fin_cases hx <;> decide
  · by_cases h2 : c = '\\'
    · rw [escChar, if_neg h1, if_pos h2] at hx
      fin_cases hx <;> decide
    · by_cases h3 : c.toNat < 32
      · rw [escChar, if_neg h1, if_neg h2, if_pos h3] at hx
        fin_cases hx
        · decide
        · decide
        · decide
        · decide
        · exact (hexDigitChar_ok _ (Nat.div_lt_of_lt_mul (by omega))).1
        · exact (hexDigitChar_ok _ (Nat.mod_lt _ (by norm_num))).1
      · rw [escChar, if_neg h1, if_neg h2, if_neg h3] at hx
        have hxc : x = c := by simpa using hx
        rw [hxc]
        intro e
        rw [e] at h3
        exact h3 (by decide)

theorem noNl_escChars (cs : List Char) : ∀ x ∈ escChars cs, x ≠ '\n' := by
  induction cs with
  | nil => intro x hx; exact absurd hx (by simp [escChars])
  | cons c cs ih =>
    intro x hx
    rw [show escChars (c :: cs) = escChar c ++ escChars cs from rfl, List.mem_append] at hx
    rcases hx with h | h
    · exact noNl_escChar c x h
    · exact ih x h

/-! ## No line of a pretty-printed JSON document is a comment line -/

mutual

theorem SL_printJson : ∀ (j : Json) (lvl : Nat), SL (printJson j lvl)
  | .null, _ => by
    show SL ['n', 'u', 'l', 'l']
    exact SL_single _ (by decide) (by decide)
  | .bool true, _ => by
    show SL ['t', 'r', 'u', 'e']
    exact SL_single _ (by decide) (by decide)
  | .bool false, _ => by
    show SL ['f', 'a', 'l', 's', 'e']
    exact SL_single _ (by decide) (by decide)
  | .num n, _ => by
    show SL (intChars n)
    apply SL_single _ (noNl_intChars n)
    simpa using solidLine_intChars n []
  | .str s, _ => by
    show SL ('"' :: (escChars s.data ++ ['"']))
    apply SL_single
    · intro c hc
      rcases List.mem_cons.mp hc with h | h
      · rw [h]; decide
      · rcases List.mem_append.mp h with h2 | h2
        · exact noNl_escChars s.data c h2
        · have : c = '"' := by simpa using h2
          rw [this]; decide
    · exact solidLine_cons '"' _ (by decide) (by decide)
  | .arr [], _ => by
    show SL ['[', ']']
    exact SL_single _ (by decide) (by decide)
  | .arr (x :: xs), lvl => by
    have h1 : SL (printJson x (lvl + 1) ++ printItems xs (lvl + 1)) := SL_printTail x xs (lvl + 1)
    have h2 : SL ((printJson x (lvl + 1) ++ printItems xs (lvl + 1)) ++ (nlIndent lvl ++ [']'])) :=
      SL_glue_nl _ _ lvl h1 (SL_single _ (by decide) (by decide))
    have h3 : SL ((['['] : List Char) ++ (nlIndent (lvl + 1) ++
        ((printJson x (lvl + 1) ++ printItems xs (lvl + 1)) ++ (nlIndent lvl ++ [']'])))) :=
      SL_glue_nl _ _ (lvl + 1) (SL_single _ (by decide) (by decide)) h2
    simpa only [printJson, List.append_assoc, List.cons_append, List.nil_append] using h3
  | .obj [], _ => by
    show SL ['{', '}']
    exact SL_single _ (by decide) (by decide)
  | .obj (kv :: kvs), lvl => by
    have h1 : SL (printMember kv (lvl + 1) ++ printMembers kvs (lvl + 1)) :=
      SL_printMemTail kv kvs (lvl + 1)
    have h2 : SL ((printMember kv (lvl + 1) ++ printMembers kvs (lvl + 1)) ++
        (nlIndent lvl ++ ['}'])) :=
      SL_glue_nl _ _ lvl h1 (SL_single _ (by decide) (by decide))
    have h3 : SL ((['{'] : List Char) ++ (nlIndent (lvl + 1) ++
        ((printMember kv (lvl + 1) ++ printMembers kvs (lvl + 1)) ++ (nlIndent lvl ++ ['}'])))) :=
      SL_glue_nl _ _ (lvl + 1) (SL_single _ (by decide) (by decide)) h2
    simpa only [printJson, List.append_assoc, List.cons_append, List.nil_append] using h3
termination_by j lvl => sizeOf j

theorem SL_printTail : ∀ (x : Json) (xs : List Json) (lvl : Nat),
    SL (printJson x lvl ++ printItems xs lvl)
  | x, [], lvl => by simpa [printItems] using SL_printJson x lvl
  | x, y :: ys, lvl => by
    have hx : SL (printJson x lvl ++ [',']) :=
      SL_append_noNl _ _ (by decide) (SL_printJson x lvl)
    have hy : SL (printJson y lvl ++ printItems ys lvl) := SL_printTail y ys lvl
    have h := SL_glue_nl (printJson x lvl ++ [',']) (printJson y lvl ++ printItems ys lvl) lvl hx hy
    simpa only [printItems, List.append_assoc, List.cons_append, List.nil_append] using h
termination_by x xs lvl => 1 + sizeOf x + sizeOf xs

theorem SL_printMemTail : ∀ (kv : String × Json) (kvs : List (String × Json)) (lvl : Nat),
    SL (printMember kv lvl ++ printMembers kvs lvl)
  | (k, v), [], lvl => by
    have h : SL (('"' :: (escChars k.data ++ ['"', ':', ' '])) ++ printJson v lvl) := by
      apply SL_prepend_noNl
      · intro c hc
        rcases List.mem_cons.mp hc with h | h
        · rw [h]; decide
        · rcases List.mem_append.mp h with h2 | h2
          · exact noNl_escChars k.data c h2
          · intro e
            rw [e] at h2
            exact absurd h2 (by decide)
      · intro x
        rw [List.cons_append]
        exact solidLine_cons '"' _ (by decide) (by decide)
      · exact SL_printJson v lvl
    simpa only [printMember, printMembers, List.append_assoc, List.cons_append,
      List.nil_append, List.append_nil] using h
  | (k, v), kv' :: kvs', lvl => by
    have hm : SL (printMember (k, v) lvl) := by
      have h : SL (('"' :: (escChars k.data ++ ['"', ':', ' '])) ++ printJson v lvl) := by
        apply SL_prepend_noNl
        · intro c hc
          rcases List.mem_cons.mp hc with h | h
          · rw [h]; decide
          · rcases List.mem_append.mp h with h2 | h2
            · exact noNl_escChars k.data c h2
            · intro e
              rw [e] at h2
              exact absurd h2 (by decide)
        · intro x
          rw [List.cons_append]
          exact solidLine_cons '"' _ (by decide) (by decide)
        · exact SL_printJson v lvl
      simpa only [printMember, List.append_assoc, List.cons_append, List.nil_append] using h
    have hx : SL (printMember (k, v) lvl ++ [',']) :=
      SL_append_noNl _ _ (by decide) hm
    have hy : SL (printMember kv' lvl ++ printMembers kvs' lvl) := SL_printMemTail kv' kvs' lvl
    have h := SL_glue_nl (printMember (k, v) lvl ++ [','])
      (printMember kv' lvl ++ printMembers kvs' lvl) lvl hx hy
    simpa only [printMembers, List.append_assoc, List.cons_append, List.nil_append] using h
termination_by kv kvs lvl => 1 + sizeOf kv + sizeOf kvs

end

/-! ## Lemmas: the parser inverts the printer -/


theorem takeWhile_append_of_all {p : Char → Bool} (a b : List Char)
    (h : ∀ c ∈ a, p c = true) : (a ++ b).takeWhile p = a ++ b.takeWhile p := by
  induction a with
  | nil => rfl
  | cons c a ih =>
    rw [List.cons_append, List.takeWhile_cons, if_pos (h c (by simp)),
      ih (fun x hx => h x (by simp [hx])), List.cons_append]

theorem takeWhile_eq_nil_of_head {p : Char → Bool} (b : List Char)
    (h : ∀ c, b.head? = some c → p c = false) : b.takeWhile p = [] := by
  cases b with
  | nil => rfl
  | cons c t => rw [List.takeWhile_cons, if_neg (by simp [h c rfl])]

theorem dropWhile_eq_self_of_head {p : Char → Bool} (b : List Char)
    (h : ∀ c, b.head? = some c → p c = false) : b.dropWhile p = b := by
  cases b with
  | nil => rfl
  | cons c t => exact dropWhile_cons_of_neg c t (h c rfl)

theorem jsonWs_not_digit (c : Char) (h : isJsonWs c = true) : c.isDigit = false := by
  simp only [isJsonWs, Bool.or_eq_true, decide_eq_true_eq] at h
  rcases h with ((e | e) | e) | e <;> rw [e] <;> decide

theorem digitVal_digitChar : ∀ d, d < 10 → digitVal (Nat.digitChar d) = d := by decide

theorem foldl_digit_chars (L : List Nat) (h : ∀ d ∈ L, d < 10) :
    ((L.map Nat.digitChar).reverse).foldl (fun a c => 10 * a + digitVal c) 0 =
      Nat.ofDigits 10 L := by
  induction L with
  | nil => simp [Nat.ofDigits]
  | cons d L ih =>
    rw [List.map_cons, List.reverse_cons, List.foldl_append,
      ih (fun x hx => h x (by simp [hx]))]
    have : Nat.ofDigits 10 (d :: L) = d + 10 * Nat.ofDigits 10 L := by
      rw [Nat.ofDigits_cons]
    rw [this]
    simp only [List.foldl_cons, List.foldl_nil]
    rw [digitVal_digitChar d (h d (by simp))]
    ring

theorem foldl_natChars (n : Nat) :
    (natChars n).foldl (fun a c => 10 * a + digitVal c) 0 = n := by
  unfold natChars
  split
  · next h =>
    subst h
    simp [digitVal]
  · next h =>
    rw [foldl_digit_chars _ (fun d hd => Nat.digits_lt_base (by norm_num) hd),
      Nat.ofDigits_digits]

theorem digitChar_ne_zero_char : ∀ m, m < 10 → m ≠ 0 → Nat.digitChar m ≠ '0' := by decide

theorem natChars_multi_head_ne_zero (n : Nat) (d e : Char) (t : List Char)
    (h : natChars n = d :: e :: t) : d ≠ '0' := by
  have hn : n ≠ 0 := by
    intro h0
    rw [h0] at h
    have : (['0'] : List Char) = d :: e :: t := by simpa [natChars] using h
    simp at this
  unfold natChars at h
  rw [if_neg hn, ← List.map_reverse] at h
  rcases List.map_eq_cons_iff.mp h with ⟨m, ms, hrev, hd, _⟩
  have hlast : (Nat.digits 10 n).getLast? = some m := by
    rw [← List.head?_reverse, hrev]
    rfl
  have hne : Nat.digits 10 n ≠ [] := Nat.digits_ne_nil_iff_ne_zero.mpr hn
  have hm : m = (Nat.digits 10 n).getLast hne := by
    have := List.getLast?_eq_getLast (Nat.digits 10 n) hne
    rw [this] at hlast
    exact (Option.some.injEq _ _).mp hlast.symm ▸ rfl
  have hmz : m ≠ 0 := by
    rw [hm]
    exact Nat.getLast_digit_ne_zero 10 hn
  have hmlt : m < 10 := by
    apply Nat.digits_lt_base (by norm_num)
    rw [hm]
    exact List.getLast_mem hne
  rw [← hd]
  exact digitChar_ne_zero_char m hmlt hmz

theorem pNat_natChars (n : Nat) (rest : List Char) (h : headNotDigit rest) :
    pNat (natChars n ++ rest) = some (n, rest) := by
  have htake : (natChars n ++ rest).takeWhile Char.isDigit = natChars n := by
    rw [takeWhile_append_of_all _ _ (natChars_all_digits n),
      takeWhile_eq_nil_of_head rest h, List.append_nil]
  have hdrop : (natChars n ++ rest).dropWhile Char.isDigit = rest := by
    rw [dropWhile_append_of_all _ _ (natChars_all_digits n),
      dropWhile_eq_self_of_head rest h]
  rcases hD : natChars n with _ | ⟨d, ds⟩
  · exact absurd hD (natChars_ne_nil n)
  · have hfold : (d :: ds).foldl (fun a c => 10 * a + digitVal c) 0 = n := by
      rw [← hD]
      exact foldl_natChars n
    have hzero : ¬(d = '0' ∧ ds ≠ []) := by
      rintro ⟨hd0, hds⟩
      rcases ds with _ | ⟨e, t⟩
      · exact hds rfl
      · exact natChars_multi_head_ne_zero n d e t hD hd0
    rw [← hD]
    simp only [pNat, htake, hdrop]
    rw [hD]
    show (if d = '0' ∧ ds ≠ [] then none
      else some ((d :: ds).foldl (fun a c => 10 * a + digitVal c) 0, rest)) = some (n, rest)
    rw [if_neg hzero, hfold]

theorem pInt_intChars (i : Int) (rest : List Char) (h : headNotDigit rest) :
    pInt (intChars i ++ rest) = some (i, rest) := by
  cases i with
  | ofNat n =>
    rcases hD : natChars n with _ | ⟨d, ds⟩
    · exact absurd hD (natChars_ne_nil n)
    · have hd : d.isDigit = true := natChars_all_digits n d (by rw [hD]; simp)
      rw [show intChars (Int.ofNat n) = natChars n from rfl, hD, List.cons_append]
      simp only [pInt]
      rw [if_neg (isDigit_ne d hd '-' (by decide)), ← List.cons_append, ← hD,
        pNat_natChars n rest h]
      rfl
  | negSucc m =>
    rw [show intChars (Int.negSucc m) = '-' :: natChars (m + 1) from rfl, List.cons_append]
    simp only [pInt]
    rw [if_pos trivial, pNat_natChars (m + 1) rest h]
    show some (-((m + 1 : Nat) : Int), rest) = some (Int.negSucc m, rest)
    have hneg : -((m + 1 : Nat) : Int) = Int.negSucc m := by
      rw [Int.negSucc_eq]
      push_cast
      ring
    rw [hneg]

theorem hexVal_hexDigitChar : ∀ m, m < 16 → hexVal (hexDigitChar m) = some m := by decide

theorem escChar_length_pos (c : Char) : 1 ≤ (escChar c).length := by
  unfold escChar
  split
  · simp
  · split
    · simp
    · split <;> simp

theorem escChars_length (s : List Char) : s.length ≤ (escChars s).length := by
  induction s with
  | nil => simp [escChars]
  | cons c s ih =>
    rw [show escChars (c :: s) = escChar c ++ escChars s from rfl, List.length_append]
    have := escChar_length_pos c
    simp only [List.length_cons]
    omega

theorem pStringF_hex (f : Nat) (h3c h4c : Char) (a b : Nat) (X : List Char)
    (ha : hexVal h3c = some a) (hb : hexVal h4c = some b) :
    pStringF (f + 1) ('\\' :: 'u' :: '0' :: '0' :: h3c :: h4c :: X) =
      (pStringF f X).map
        (fun p => (Char.ofNat (((0 * 16 + 0) * 16 + a) * 16 + b) :: p.1, p.2)) := by
  have step : pStringF (f + 1) ('\\' :: 'u' :: '0' :: '0' :: h3c :: h4c :: X) =
      match hexVal '0', hexVal '0', hexVal h3c, hexVal h4c with
      | some a, some b, some x, some d =>
        (pStringF f X).map
          (fun p => (Char.ofNat (((a * 16 + b) * 16 + x) * 16 + d) :: p.1, p.2))
      | _, _, _, _ => none := rfl
  rw [step, ha, hb]
  rfl

theorem pStringF_esc (f : Nat) (s rest : List Char) (hf : s.length + 1 ≤ f) :
    pStringF f (escChars s ++ '"' :: rest) = some (s, rest) := by
  induction s generalizing f with
  | nil =>
    obtain ⟨f', rfl⟩ : ∃ f', f = f' + 1 := ⟨f - 1, by omega⟩
    show pStringF (f' + 1) ('"' :: rest) = some ([], rest)
    rfl
  | cons c s ih =>
    obtain ⟨f', rfl⟩ : ∃ f', f = f' + 1 := ⟨f - 1, by omega⟩
    have hf' : s.length + 1 ≤ f' := by
      simp only [List.length_cons] at hf
      omega
    rw [show escChars (c :: s) = escChar c ++ escChars s from rfl, List.append_assoc]
    by_cases h1 : c = '"'
    · subst h1
      rw [escChar, if_pos rfl]
      simp only [List.cons_append, List.nil_append]
      have step : pStringF (f' + 1) ('\\' :: '"' :: (escChars s ++ '"' :: rest)) =
          (pStringF f' (escChars s ++ '"' :: rest)).map (fun p => ('"' :: p.1, p.2)) := rfl
      rw [step, ih f' hf']
      rfl
    · by_cases h2 : c = '\\'
      · subst h2
        rw [escChar, if_neg h1, if_pos rfl]
        simp only [List.cons_append, List.nil_append]
        have step : pStringF (f' + 1) ('\\' :: '\\' :: (escChars s ++ '"' :: rest)) =
            (pStringF f' (escChars s ++ '"' :: rest)).map (fun p => ('\\' :: p.1, p.2)) := rfl
        rw [step, ih f' hf']
        rfl
      · by_cases h3 : c.toNat < 32
        · rw [escChar, if_neg h1, if_neg h2, if_pos h3]
          simp only [List.cons_append, List.nil_append]
          rw [pStringF_hex f' _ _ _ _ (escChars s ++ '"' :: rest)
            (hexVal_hexDigitChar _ (Nat.div_lt_of_lt_mul (by omega)))
            (hexVal_hexDigitChar _ (Nat.mod_lt _ (by norm_num))), ih f' hf']
          have harith : ((0 * 16 + 0) * 16 + c.toNat / 16) * 16 + c.toNat % 16 = c.toNat := by
            omega
          rw [harith, Char.ofNat_toNat]
          rfl
        · rw [escChar, if_neg h1, if_neg h2, if_neg h3]
          simp only [List.cons_append, List.nil_append]
          have step : pStringF (f' + 1) (c :: (escChars s ++ '"' :: rest)) =
              if c = '"' then some ([], escChars s ++ '"' :: rest)
              else if c = '\\' then
                match escChars s ++ '"' :: rest with
                | [] => none
                | e :: rest2 =>
                  if e = 'u' then
                    match rest2 with
                    | h1 :: h2 :: h3 :: h4 :: rest3 =>
                      match hexVal h1, hexVal h2, hexVal h3, hexVal h4 with
                      | some a, some b, some x, some d =>
                        (pStringF f' rest3).map
                          (fun p => (Char.ofNat (((a * 16 + b) * 16 + x) * 16 + d) :: p.1, p.2))
                      | _, _, _, _ => none
                    | _ => none
                  else
                    match escCode e with
                    | some d => (pStringF f' rest2).map (fun p => (d :: p.1, p.2))
                    | none => none
              else if c.toNat < 32 then none
              else (pStringF f' (escChars s ++ '"' :: rest)).map (fun p => (c :: p.1, p.2)) :=
            rfl
          rw [step, if_neg h1, if_neg h2, if_neg h3, ih f' hf']
          rfl

theorem pString_esc (s rest : List Char) :
    pString (escChars s ++ '"' :: rest) = some (s, rest) := by
  unfold pString
  apply pStringF_esc
  have := escChars_length s
  simp only [List.length_append, List.length_cons]
  omega


theorem jsizeV_pos (j : Json) : 1 ≤ jsizeV j := by
  cases j <;> simp [jsizeV] <;> omega

theorem natChars_length_pos (n : Nat) : 1 ≤ (natChars n).length := by
  rcases hD : natChars n with _ | ⟨d, ds⟩
  · exact absurd hD (natChars_ne_nil n)
  · simp

theorem intChars_length_pos (i : Int) : 1 ≤ (intChars i).length := by
  cases i with
  | ofNat n => exact natChars_length_pos n
  | negSucc m => simp [intChars]

mutual

theorem jsizeV_le_len : ∀ (j : Json) (lvl : Nat), jsizeV j ≤ (printJson j lvl).length
  | .null, _ => by simp [jsizeV, printJson]
  | .bool true, _ => by simp [jsizeV, printJson]
  | .bool false, _ => by simp [jsizeV, printJson]
  | .num n, _ => by
    simpa [jsizeV, printJson] using intChars_length_pos n
  | .str s, _ => by simp [jsizeV, printJson]
  | .arr [], _ => by simp [jsizeV, jsizeL, printJson]
  | .arr (x :: xs), lvl => by
    have h1 := jsizeV_le_len x (lvl + 1)
    have h2 := jsizeL_le_len xs (lvl + 1)
    simp only [jsizeV, jsizeL, printJson, List.length_cons, List.length_append,
      nlIndent, List.length_replicate, List.length_singleton]
    omega
  | .obj [], _ => by simp [jsizeV, jsizeM, printJson]
  | .obj ((k, v) :: kvs), lvl => by
    have h1 := jsizeV_le_len v (lvl + 1)
    have h2 := jsizeM_le_len kvs (lvl + 1)
    simp only [jsizeV, jsizeM, printJson, printMember, List.length_cons, List.length_append,
      nlIndent, List.length_replicate, List.length_singleton]
    omega

theorem jsizeL_le_len : ∀ (xs : List Json) (lvl : Nat), jsizeL xs ≤ (printItems xs lvl).length
  | [], _ => by simp [jsizeL, printItems]
  | x :: xs, lvl => by
    have h1 := jsizeV_le_len x lvl
    have h2 := jsizeL_le_len xs lvl
    simp only [jsizeL, printItems, List.length_cons, List.length_append, nlIndent,
      List.length_replicate]
    omega

theorem jsizeM_le_len : ∀ (kvs : List (String × Json)) (lvl : Nat),
    jsizeM kvs ≤ (printMembers kvs lvl).length
  | [], _ => by simp [jsizeM, printMembers]
  | (k, v) :: kvs, lvl => by
    have h1 := jsizeV_le_len v lvl
    have h2 := jsizeM_le_len kvs lvl
    simp only [jsizeM, printMembers, printMember, List.length_cons, List.length_append,
      nlIndent, List.length_replicate]
    omega

end

/-! ## Whitespace and head-character helpers for the parser -/

theorem skipWs_append_ws (sp cs : List Char) (h : ∀ c ∈ sp, isJsonWs c = true) :
    skipWs (sp ++ cs) = skipWs cs :=
  dropWhile_append_of_all sp cs h

theorem skipWs_cons_not (c : Char) (cs : List Char) (h : isJsonWs c = false) :
    skipWs (c :: cs) = c :: cs :=
  dropWhile_cons_of_neg c cs h

theorem skipWs_cons_ws (c : Char) (cs : List Char) (h : isJsonWs c = true) :
    skipWs (c :: cs) = skipWs cs := by
  unfold skipWs
  rw [List.dropWhile_cons, if_pos (by simp [h])]

theorem nlIndent_ws (k : Nat) : ∀ c ∈ nlIndent k, isJsonWs c = true := by
  intro c hc
  rcases List.mem_cons.mp hc with h | h
  · rw [h]; decide
  · rw [List.eq_of_mem_replicate h]; decide

theorem headNotDigit_nil : headNotDigit [] := by
  intro c hc
  simp at hc

theorem headNotDigit_cons (c0 : Char) (r : List Char) (hc : c0.isDigit = false) :
    headNotDigit (c0 :: r) := by
  intro c hc'
  simp only [List.head?_cons, Option.some.injEq] at hc'
  rw [← hc']
  exact hc

theorem headNotDigit_wsClose (w : List Char) (c0 : Char) (r : List Char)
    (hw : ∀ c ∈ w, isJsonWs c = true) (hc : c0.isDigit = false) :
    headNotDigit (w ++ c0 :: r) := by
  cases w with
  | nil => exact headNotDigit_cons c0 r hc
  | cons a w =>
    apply headNotDigit_cons
    exact jsonWs_not_digit a (hw a (by simp))

theorem intChars_head (i : Int) : ∃ d t, intChars i = d :: t ∧ isJsonWs d = false ∧
    d ≠ 'n' ∧ d ≠ 't' ∧ d ≠ 'f' ∧ d ≠ '"' ∧ d ≠ '[' ∧ d ≠ '{' ∧ d ≠ ']' ∧ d ≠ '}' := by
  cases i with
  | ofNat n =>
    rcases hD : natChars n with _ | ⟨d, ds⟩
    · exact absurd hD (natChars_ne_nil n)
    · have hd : d.isDigit = true := natChars_all_digits n d (by rw [hD]; simp)
      exact ⟨d, ds, by rw [show intChars (Int.ofNat n) = natChars n from rfl, hD],
        isDigit_not_jsonWs d hd,
        isDigit_ne d hd 'n' (by decide), isDigit_ne d hd 't' (by decide),
        isDigit_ne d hd 'f' (by decide), isDigit_ne d hd '"' (by decide),
        isDigit_ne d hd '[' (by decide), isDigit_ne d hd '{' (by decide),
        isDigit_ne d hd ']' (by decide), isDigit_ne d hd '}' (by decide)⟩
  | negSucc m =>
    exact ⟨'-', natChars (m + 1), rfl, by decide, by decide, by decide, by decide,
      by decide, by decide, by decide, by decide, by decide⟩

/-- Every printed JSON value begins with a non-whitespace character that is
not a closing bracket. -/
theorem printJson_head (j : Json) (lvl : Nat) :
    ∃ d t, printJson j lvl = d :: t ∧ isJsonWs d = false ∧ d ≠ ']' ∧ d ≠ '}' := by
  cases j with
  | num n =>
    obtain ⟨d, t, hdt, hws, _, _, _, _, _, _, h1, h2⟩ := intChars_head n
    exact ⟨d, t, hdt, hws, h1, h2⟩
  | null => refine ⟨'n', _, rfl, ?_, ?_, ?_⟩ <;> decide
  | bool b =>
    cases b with
    | true => refine ⟨'t', _, rfl, ?_, ?_, ?_⟩ <;> decide
    | false => refine ⟨'f', _, rfl, ?_, ?_, ?_⟩ <;> decide
  | str s => refine ⟨'"', _, rfl, ?_, ?_, ?_⟩ <;> decide
  | arr xs =>
    cases xs with
    | nil => refine ⟨'[', _, rfl, ?_, ?_, ?_⟩ <;> decide
    | cons x xs => refine ⟨'[', _, rfl, ?_, ?_, ?_⟩ <;> decide
  | obj kvs =>
    cases kvs with
    | nil => refine ⟨'{', _, rfl, ?_, ?_, ?_⟩ <;> decide
    | cons kv kvs => refine ⟨'{', _, rfl, ?_, ?_, ?_⟩ <;> decide

/-! ## One-step unfolding lemmas for the parser -/

theorem pValCore_succ (f : Nat) (c : Char) (X : List Char) :
    pValCore (f + 1) (c :: X) =
      (if c = 'n' then
        match X with
        | 'u' :: 'l' :: 'l' :: r => some (.null, r)
        | _ => none
      else if c = 't' then
        match X with
        | 'r' :: 'u' :: 'e' :: r => some (.bool true, r)
        | _ => none
      else if c = 'f' then
        match X with
        | 'a' :: 'l' :: 's' :: 'e' :: r => some (.bool false, r)
        | _ => none
      else if c = '"' then
        (pString X).map (fun p => (.str (String.mk p.1), p.2))
      else if c = '[' then
        match skipWs X with
        | [] => none
        | d :: r2 =>
          if d = ']' then some (.arr [], r2)
          else (pElems f (d :: r2)).map (fun p => (.arr p.1, p.2))
      else if c = '{' then
        match skipWs X with
        | [] => none
        | d :: r2 =>
          if d = '}' then some (.obj [], r2)
          else (pMembersCore f (d :: r2)).map (fun p => (.obj p.1, p.2))
      else
        (pInt (c :: X)).map (fun p => (.num p.1, p.2))) := rfl

theorem pValCore_lbracket (f : Nat) (X : List Char) :
    pValCore (f + 1) ('[' :: X) =
      (match skipWs X with
      | [] => none
      | d :: r2 =>
        if d = ']' then some (Json.arr [], r2)
        else (pElems f (d :: r2)).map (fun p => (Json.arr p.1, p.2))) := rfl

theorem pValCore_lbracket_cons (f : Nat) (X : List Char) (d : Char) (r2 : List Char)
    (hskip : skipWs X = d :: r2) (hd : d ≠ ']') :
    pValCore (f + 1) ('[' :: X) = (pElems f (d :: r2)).map (fun p => (Json.arr p.1, p.2)) := by
  rw [pValCore_lbracket, hskip]
  show (if d = ']' then some (Json.arr [], r2)
      else (pElems f (d :: r2)).map (fun p => (Json.arr p.1, p.2))) =
    (pElems f (d :: r2)).map (fun p => (Json.arr p.1, p.2))
  rw [if_neg hd]

theorem pValCore_lbrace (f : Nat) (X : List Char) :
    pValCore (f + 1) ('{' :: X) =
      (match skipWs X with
      | [] => none
      | d :: r2 =>
        if d = '}' then some (Json.obj [], r2)
        else (pMembersCore f (d :: r2)).map (fun p => (Json.obj p.1, p.2))) := rfl

theorem pValCore_lbrace_cons (f : Nat) (X : List Char) (d : Char) (r2 : List Char)
    (hskip : skipWs X = d :: r2) (hd : d ≠ '}') :
    pValCore (f + 1) ('{' :: X) = (pMembersCore f (d :: r2)).map (fun p => (Json.obj p.1, p.2)) := by
  rw [pValCore_lbrace, hskip]
  show (if d = '}' then some (Json.obj [], r2)
      else (pMembersCore f (d :: r2)).map (fun p => (Json.obj p.1, p.2))) =
    (pMembersCore f (d :: r2)).map (fun p => (Json.obj p.1, p.2))
  rw [if_neg hd]

theorem pElems_succ (f : Nat) (cs : List Char) :
    pElems (f + 1) cs =
      (match pValCore f (skipWs cs) with
      | none => none
      | some (x, r) =>
        match skipWs r with
        | [] => none
        | c :: r2 =>
          if c = ',' then (pElems f r2).map (fun p => (x :: p.1, p.2))
          else if c = ']' then some ([x], r2)
          else none) := rfl

theorem pElems_ws (f : Nat) (sp cs : List Char) (h : ∀ c ∈ sp, isJsonWs c = true) :
    pElems f (sp ++ cs) = pElems f cs := by
  cases f with
  | zero => rfl
  | succ f => rw [pElems_succ, pElems_succ, skipWs_append_ws sp cs h]

theorem pMembersCore_run (f : Nat) (kd : List Char) (Y : List Char) :
    pMembersCore (f + 1) ('"' :: (escChars kd ++ '"' :: (':' :: ' ' :: Y))) =
      (match pValCore f (skipWs (' ' :: Y)) with
      | none => none
      | some (v, r4) =>
        match skipWs r4 with
        | [] => none
        | d :: r5 =>
          if d = ',' then
            (pMembersCore f (skipWs r5)).map (fun p => ((String.mk kd, v) :: p.1, p.2))
          else if d = '}' then some ([(String.mk kd, v)], r5)
          else none) := by
  have step : pMembersCore (f + 1) ('"' :: (escChars kd ++ '"' :: (':' :: ' ' :: Y))) =
      (match pString (escChars kd ++ '"' :: (':' :: ' ' :: Y)) with
      | none => none
      | some (k, r2) =>
        match skipWs r2 with
        | ':' :: r3 =>
          match pValCore f (skipWs r3) with
          | none => none
          | some (v, r4) =>
            match skipWs r4 with
            | [] => none
            | d :: r5 =>
              if d = ',' then
                (pMembersCore f (skipWs r5)).map (fun p => ((String.mk k, v) :: p.1, p.2))
              else if d = '}' then some ([(String.mk k, v)], r5)
              else none
        | _ => none) := rfl
  rw [step, pString_esc]
  rfl

/-! ## The parser inverts the pretty printer -/

mutual

theorem RT_val : ∀ (f : Nat) (j : Json) (lvl : Nat) (rest : List Char),
    jsizeV j ≤ f → headNotDigit rest →
    pValCore f (printJson j lvl ++ rest) = some (j, rest)
  | 0, j, _, _, hf, _ => absurd hf (by have := jsizeV_pos j; omega)
  | _ + 1, .null, _, _, _, _ => rfl
  | _ + 1, .bool true, _, _, _, _ => rfl
  | _ + 1, .bool false, _, _, _, _ => rfl
  | f + 1, .num i, lvl, rest, _, hrest => by
    obtain ⟨d, t, hdt, _, hn, ht, hfc, hq, hlb, hlbr, _, _⟩ := intChars_head i
    rw [show printJson (.num i) lvl = intChars i from rfl, hdt, List.cons_append,
      pValCore_succ, if_neg hn, if_neg ht, if_neg hfc, if_neg hq, if_neg hlb, if_neg hlbr,
      ← List.cons_append, ← hdt, pInt_intChars i rest hrest]
    rfl
  | f + 1, .str s, lvl, rest, _, _ => by
    rw [show printJson (.str s) lvl ++ rest = '"' :: (escChars s.data ++ '"' :: rest) by
      simp [printJson]]
    have step : pValCore (f + 1) ('"' :: (escChars s.data ++ '"' :: rest)) =
        (pString (escChars s.data ++ '"' :: rest)).map
          (fun p => (Json.str (String.mk p.1), p.2)) := rfl
    rw [step, pString_esc]
    rfl
  | _ + 1, .arr [], _, _, _, _ => rfl
  | f + 1, .arr (x :: xs), lvl, rest, hf, _ => by
    obtain ⟨d, t, hdt, hws, hrb, _⟩ := printJson_head x (lvl + 1)
    have heq : printJson (.arr (x :: xs)) lvl ++ rest =
        '[' :: (nlIndent (lvl + 1) ++ (printJson x (lvl + 1) ++ (printItems xs (lvl + 1) ++
          (nlIndent lvl ++ ']' :: rest)))) := by
      simp [printJson, List.append_assoc]
    have hskip : skipWs (nlIndent (lvl + 1) ++ (printJson x (lvl + 1) ++
          (printItems xs (lvl + 1) ++ (nlIndent lvl ++ ']' :: rest)))) =
        d :: (t ++ (printItems xs (lvl + 1) ++ (nlIndent lvl ++ ']' :: rest))) := by
      rw [skipWs_append_ws _ _ (nlIndent_ws (lvl + 1)), hdt, List.cons_append,
        skipWs_cons_not d _ hws]
    rw [heq, pValCore_lbracket_cons f _ d _ hskip hrb, ← List.cons_append, ← hdt,
      RT_elems f x xs (lvl + 1) (nlIndent lvl) rest (by simp only [jsizeV] at hf; omega)
        (nlIndent_ws lvl)]
    rfl
  | _ + 1, .obj [], _, _, _, _ => rfl
  | f + 1, .obj (kv :: kvs), lvl, rest, hf, _ => by
    obtain ⟨k, v⟩ := kv
    have hm : printMember (k, v) (lvl + 1) =
        '"' :: (escChars k.data ++ ['"', ':', ' '] ++ printJson v (lvl + 1)) := rfl
    have heq : printJson (.obj ((k, v) :: kvs)) lvl ++ rest =
        '{' :: (nlIndent (lvl + 1) ++ (printMember (k, v) (lvl + 1) ++
          (printMembers kvs (lvl + 1) ++ (nlIndent lvl ++ '}' :: rest)))) := by
      simp [printJson, List.append_assoc]
    have hskip : skipWs (nlIndent (lvl + 1) ++ (printMember (k, v) (lvl + 1) ++
          (printMembers kvs (lvl + 1) ++ (nlIndent lvl ++ '}' :: rest)))) =
        '"' :: ((escChars k.data ++ ['"', ':', ' '] ++ printJson v (lvl + 1)) ++
          (printMembers kvs (lvl + 1) ++ (nlIndent lvl ++ '}' :: rest))) := by
      rw [skipWs_append_ws _ _ (nlIndent_ws (lvl + 1)), hm, List.cons_append,
        skipWs_cons_not '"' _ (by decide)]
    rw [heq, pValCore_lbrace_cons f _ '"' _ hskip (by decide), ← List.cons_append, ← hm,
      RT_members f (k, v) kvs (lvl + 1) (nlIndent lvl) rest
        (by simp only [jsizeV] at hf; omega) (nlIndent_ws lvl)]
    rfl
termination_by f _ _ _ => f

theorem RT_elems : ∀ (f : Nat) (x : Json) (xs : List Json) (lvl : Nat) (w rest : List Char),
    jsizeL (x :: xs) ≤ f → (∀ c ∈ w, isJsonWs c = true) →
    pElems f (printJson x lvl ++ (printItems xs lvl ++ (w ++ ']' :: rest))) = some (x :: xs, rest)
  | 0, x, xs, _, _, _, hf, _ => absurd hf (by simp only [jsizeL]; omega)
  | f + 1, x, xs, lvl, w, rest, hf, hw => by
    obtain ⟨d, t, hdt, hws, _, _⟩ := printJson_head x lvl
    have hnd : headNotDigit (printItems xs lvl ++ (w ++ ']' :: rest)) := by
      cases xs with
      | nil =>
        simp only [printItems, List.nil_append]
        exact headNotDigit_wsClose w ']' rest hw (by decide)
      | cons y ys =>
        simp only [printItems, List.cons_append]
        exact headNotDigit_cons ',' _ (by decide)
    have hskip : skipWs (printJson x lvl ++ (printItems xs lvl ++ (w ++ ']' :: rest))) =
        printJson x lvl ++ (printItems xs lvl ++ (w ++ ']' :: rest)) := by
      rw [hdt, List.cons_append, skipWs_cons_not d _ hws, ← List.cons_append, ← hdt]
    rw [pElems_succ, hskip, RT_val f x lvl _ (by simp only [jsizeL] at hf; omega) hnd]
    cases xs with
    | nil =>
      show (match skipWs (printItems ([] : List Json) lvl ++ (w ++ ']' :: rest)) with
        | [] => none
        | c :: r2 =>
          if c = ',' then (pElems f r2).map (fun p => (x :: p.1, p.2))
          else if c = ']' then some ([x], r2)
          else none) = some ([x], rest)
      rw [show printItems ([] : List Json) lvl ++ (w ++ ']' :: rest) = w ++ ']' :: rest by
        simp [printItems]]
      rw [skipWs_append_ws w _ hw, skipWs_cons_not ']' _ (by decide)]
      rfl
    | cons y ys =>
      show (match skipWs (printItems (y :: ys) lvl ++ (w ++ ']' :: rest)) with
        | [] => none
        | c :: r2 =>
          if c = ',' then (pElems f r2).map (fun p => (x :: p.1, p.2))
          else if c = ']' then some ([x], r2)
          else none) = some (x :: y :: ys, rest)
      rw [show printItems (y :: ys) lvl ++ (w ++ ']' :: rest) =
          ',' :: (nlIndent lvl ++ (printJson y lvl ++ (printItems ys lvl ++ (w ++ ']' :: rest)))) by
        simp [printItems, List.append_assoc]]
      rw [skipWs_cons_not ',' _ (by decide)]
      show (pElems f (nlIndent lvl ++ (printJson y lvl ++
          (printItems ys lvl ++ (w ++ ']' :: rest))))).map
          (fun p => (x :: p.1, p.2)) = some (x :: y :: ys, rest)
      rw [pElems_ws f (nlIndent lvl) _ (nlIndent_ws lvl),
        RT_elems f y ys lvl w rest (by simp only [jsizeL] at hf ⊢; omega) hw]
      rfl
termination_by f _ _ _ _ _ => f

theorem RT_members : ∀ (f : Nat) (kv : String × Json) (kvs : List (String × Json)) (lvl : Nat)
    (w rest : List Char),
    jsizeM (kv :: kvs) ≤ f → (∀ c ∈ w, isJsonWs c = true) →
    pMembersCore f (printMember kv lvl ++ (printMembers kvs lvl ++ (w ++ '}' :: rest))) =
      some (kv :: kvs, rest)
  | 0, (k, v), kvs, _, _, _, hf, _ => absurd hf (by simp only [jsizeM]; omega)
  | f + 1, (k, v), kvs, lvl, w, rest, hf, hw => by
    have heq : printMember (k, v) lvl ++ (printMembers kvs lvl ++ (w ++ '}' :: rest)) =
        '"' :: (escChars k.data ++ '"' :: (':' :: ' ' :: (printJson v lvl ++
          (printMembers kvs lvl ++ (w ++ '}' :: rest))))) := by
      simp [printMember, List.append_assoc]
    rw [heq, pMembersCore_run f k.data _]
    obtain ⟨d, t, hdt, hws, _, _⟩ := printJson_head v lvl
    have hnd : headNotDigit (printMembers kvs lvl ++ (w ++ '}' :: rest)) := by
      cases kvs with
      | nil =>
        simp only [printMembers, List.nil_append]
        exact headNotDigit_wsClose w '}' rest hw (by decide)
      | cons kv' kvs' =>
        simp only [printMembers, List.cons_append]
        exact headNotDigit_cons ',' _ (by decide)
    have hskip : skipWs (' ' :: (printJson v lvl ++ (printMembers kvs lvl ++ (w ++ '}' :: rest)))) =
        printJson v lvl ++ (printMembers kvs lvl ++ (w ++ '}' :: rest)) := by
      rw [skipWs_cons_ws ' ' _ (by decide), hdt, List.cons_append, skipWs_cons_not d _ hws,
        ← List.cons_append, ← hdt]
    rw [hskip, RT_val f v lvl _ (by simp only [jsizeM] at hf; omega) hnd]
    cases kvs with
    | nil =>
      show (match skipWs (printMembers ([] : List (String × Json)) lvl ++ (w ++ '}' :: rest)) with
        | [] => none
        | d :: r5 =>
          if d = ',' then
            (pMembersCore f (skipWs r5)).map (fun p => ((String.mk k.data, v) :: p.1, p.2))
          else if d = '}' then some ([(String.mk k.data, v)], r5)
          else none) = some ([(k, v)], rest)
      rw [show printMembers ([] : List (String × Json)) lvl ++ (w ++ '}' :: rest) =
          w ++ '}' :: rest by simp [printMembers]]
      rw [skipWs_append_ws w _ hw, skipWs_cons_not '}' _ (by decide)]
      rfl
    | cons kv' kvs' =>
      obtain ⟨k', v'⟩ := kv'
      show (match skipWs (printMembers ((k', v') :: kvs') lvl ++ (w ++ '}' :: rest)) with
        | [] => none
        | d :: r5 =>
          if d = ',' then
            (pMembersCore f (skipWs r5)).map (fun p => ((String.mk k.data, v) :: p.1, p.2))
          else if d = '}' then some ([(String.mk k.data, v)], r5)
          else none) = some ((k, v) :: (k', v') :: kvs', rest)
      rw [show printMembers ((k', v') :: kvs') lvl ++ (w ++ '}' :: rest) =
          ',' :: (nlIndent lvl ++ (printMember (k', v') lvl ++
            (printMembers kvs' lvl ++ (w ++ '}' :: rest)))) by
        simp [printMembers, List.append_assoc]]
      rw [skipWs_cons_not ',' _ (by decide)]
      show (pMembersCore f (skipWs (nlIndent lvl ++ (printMember (k', v') lvl ++
          (printMembers kvs' lvl ++ (w ++ '}' :: rest)))))).map
          (fun p => ((String.mk k.data, v) :: p.1, p.2)) = some ((k, v) :: (k', v') :: kvs', rest)
      have hskip2 : skipWs (nlIndent lvl ++ (printMember (k', v') lvl ++
          (printMembers kvs' lvl ++ (w ++ '}' :: rest)))) =
          printMember (k', v') lvl ++ (printMembers kvs' lvl ++ (w ++ '}' :: rest)) := by
        rw [skipWs_append_ws _ _ (nlIndent_ws lvl),
          show printMember (k', v') lvl =
            '"' :: (escChars k'.data ++ ['"', ':', ' '] ++ printJson v' lvl) from rfl,
          List.cons_append, skipWs_cons_not '"' _ (by decide)]
      rw [hskip2, RT_members f (k', v') kvs' lvl w rest
        (by simp only [jsizeM] at hf ⊢; omega) hw]
      rfl
termination_by f _ _ _ _ _ => f

end

/-- The central round trip: parsing a pretty-printed JSON value recovers it
exactly. -/
theorem json_loads_dumps (j : Json) : json_loads (json_dumps j) = some j := by
  unfold json_loads json_dumps
  obtain ⟨d, t, hdt, hws, _, _⟩ := printJson_head j 0
  have h := RT_val ((String.mk (printJson j 0)).data.length + 1) j 0 []
    (by
      have := jsizeV_le_len j 0
      simp only [String.mk]
      omega)
    headNotDigit_nil
  rw [List.append_nil] at h
  unfold pVal
  rw [show (String.mk (printJson j 0)).data = printJson j 0 from rfl, hdt, skipWs_cons_not d _ hws,
    ← hdt, h]
  rfl

/-! ## The applier's keybindings framing and the comment-tolerant reader -/

theorem commentLine_false_of_solid (l : List Char) (h : solidLine l = true) :
    commentLine l = false := by
  unfold solidLine at h
  unfold commentLine
  rcases hd : l.dropWhile isPyWs with _ | ⟨c, t⟩
  · rfl
  · have hc : c ≠ '/' := by
      rw [hd] at h
      simpa using h
    split
    · rename_i tail heq
      injection heq with h1 h2
      exact absurd h1 hc
    · rfl

theorem filter_not_comment_of_SL (cs : List Char) (h : SL cs) :
    (splitOnNl cs).filter (fun l => !(commentLine l)) = splitOnNl cs :=
  List.filter_eq_self.mpr (fun l hl => by
    rw [commentLine_false_of_solid l (h l hl)]
    rfl)

theorem removeCommentLines_of_SL (cs : List Char) (h : SL cs) :
    removeCommentLines cs = cs := by
  unfold removeCommentLines
  rw [filter_not_comment_of_SL cs h]
  exact joinNl_splitOnNl cs

theorem not_all_pyWs_of_SL (cs : List Char) (h : SL cs) : cs.all isPyWs = false := by
  rcases hs : splitOnNl cs with _ | ⟨l0, ls⟩
  · exact absurd hs (splitOnNl_ne_nil cs)
  · have h0 : solidLine l0 = true := h l0 (by rw [hs]; simp)
    have hcs : cs = joinNl (l0 :: ls) := by rw [← hs, joinNl_splitOnNl]
    unfold solidLine at h0
    rcases hd : l0.dropWhile isPyWs with _ | ⟨c, t⟩
    · rw [hd] at h0
      exact absurd h0 (by simp)
    · have hcne : isPyWs c = false := by
        have := List.head?_dropWhile_not isPyWs l0
        rw [hd] at this
        simpa using this
      have hcmem : c ∈ l0 := (List.dropWhile_sublist isPyWs (l := l0)).mem (by rw [hd]; simp)
      have hmem : c ∈ cs := by
        rw [hcs]
        cases ls with
        | nil => simpa [joinNl] using hcmem
        | cons l1 ls' =>
          rw [show joinNl (l0 :: l1 :: ls') = l0 ++ '\n' :: joinNl (l1 :: ls') from rfl]
          exact List.mem_append_left _ hcmem
      rw [List.all_eq_false]
      exact ⟨c, hmem, by simp [hcne]⟩

theorem kbText_data (j : Json) :
    (kbText j).data = "// Empty".data ++ '\n' :: printJson j 0 := by
  unfold kbText json_dumps
  rw [String.data_append]
  rfl

theorem removeCommentLines_kbText (j : Json) :
    removeCommentLines ((kbText j).data) = printJson j 0 := by
  rw [kbText_data]
  unfold removeCommentLines
  rw [splitOnNl_append_nl, splitOnNl_noNl _ (by decide)]
  rw [show (["// Empty".data] ++ splitOnNl (printJson j 0)) =
      "// Empty".data :: splitOnNl (printJson j 0) from rfl]
  rw [List.filter_cons_of_neg (by decide), filter_not_comment_of_SL _ (SL_printJson j 0)]
  exact joinNl_splitOnNl _

/-- The file written by the applier for keybindings parses back, through the
comment-tolerant reader, to exactly the applied value. -/
theorem readCommentJson_kbText (j : Json) : readCommentJson (kbText j) = .parsed j := by
  unfold readCommentJson
  simp only [removeCommentLines_kbText]
  rw [if_neg (by rw [not_all_pyWs_of_SL _ (SL_printJson j 0)]; simp)]
  rw [show String.mk (printJson j 0) = json_dumps j from rfl, json_loads_dumps]

/-- The same keybindings file is not valid strict JSON: the leading comment
line makes `json.loads` fail. -/
theorem json_loads_kbText (j : Json) : json_loads (kbText j) = none := by
  have hslash : ∀ (f : Nat) (X : List Char), pValCore (f + 1) ('/' :: X) = none := fun f X => rfl
  unfold json_loads pVal
  rw [kbText_data]
  rw [show ("// Empty".data ++ '\n' :: printJson j 0) =
      '/' :: ('/' :: (' ' :: ('E' :: ('m' :: ('p' :: ('t' :: ('y' :: ('\n' :: printJson j 0)))))))) from rfl]
  rw [skipWs_cons_not '/' _ (by decide), hslash]

/-! ## Support lemmas: the collector and the applier -/


theorem upsert_of_not_mem {α : Type} (m : List (String × α)) (k : String) (v : α)
    (h : k ∉ m.map Prod.fst) : upsert m k v = m ++ [(k, v)] := by
  induction m with
  | nil => rfl
  | cons kv rest ih =>
    have hne : kv.1 ≠ k := by
      intro e
      exact h (by simp [e])
    rw [show upsert (kv :: rest) k v =
        if kv.1 == k then (kv.1, v) :: rest else kv :: upsert rest k v from rfl,
      if_neg (by simp [hne]), ih (fun hm => h (by simp [hm]))]
    rfl

theorem upsert_keys_of_mem {α : Type} (m : List (String × α)) (k : String) (v : α)
    (h : k ∈ m.map Prod.fst) : (upsert m k v).map Prod.fst = m.map Prod.fst := by
  induction m with
  | nil => simp at h
  | cons kv rest ih =>
    by_cases he : kv.1 = k
    · rw [show upsert (kv :: rest) k v =
          if kv.1 == k then (kv.1, v) :: rest else kv :: upsert rest k v from rfl,
        if_pos (by simp [he])]
      simp
    · rw [show upsert (kv :: rest) k v =
          if kv.1 == k then (kv.1, v) :: rest else kv :: upsert rest k v from rfl,
        if_neg (by simp [he])]
      have hm : k ∈ rest.map Prod.fst := by
        rw [List.map_cons] at h
        rcases List.mem_cons.mp h with h1 | h1
        · exact absurd h1.symm he
        · exact h1
      simp [ih hm]


theorem lookupFirst_upsert_self {α : Type} (m : List (String × α)) (k : String) (v : α) :
    lookupFirst (upsert m k v) k = some v := by
  induction m with
  | nil =>
    show lookupFirst [(k, v)] k = some v
    unfold lookupFirst
    rw [List.find?_cons_of_pos _ (by simp)]
    rfl
  | cons kv rest ih =>
    by_cases he : kv.1 = k
    · rw [show upsert (kv :: rest) k v =
          if kv.1 == k then (kv.1, v) :: rest else kv :: upsert rest k v from rfl,
        if_pos (by simp [he])]
      unfold lookupFirst
      rw [List.find?_cons_of_pos _ (by simp [he])]
      rfl
    · rw [show upsert (kv :: rest) k v =
          if kv.1 == k then (kv.1, v) :: rest else kv :: upsert rest k v from rfl,
        if_neg (by simp [he])]
      rw [show lookupFirst (kv :: upsert rest k v) k = lookupFirst (upsert rest k v) k by
        unfold lookupFirst
        rw [List.find?_cons_of_neg _ (by simp [he])]]
      exact ih

theorem lookupFirst_upsert_ne {α : Type} (m : List (String × α)) (k k' : String) (v : α)
    (h : k' ≠ k) : lookupFirst (upsert m k v) k' = lookupFirst m k' := by
  induction m with
  | nil =>
    show lookupFirst [(k, v)] k' = lookupFirst [] k'
    unfold lookupFirst
    rw [List.find?_cons_of_neg _ (by simp [Ne.symm h])]
  | cons kv rest ih =>
    by_cases he : kv.1 = k
    · rw [show upsert (kv :: rest) k v =
          if kv.1 == k then (kv.1, v) :: rest else kv :: upsert rest k v from rfl,
        if_pos (by simp [he])]
      by_cases he' : kv.1 = k'
      · exact absurd (he'.symm.trans he) h
      · rw [show lookupFirst ((kv.1, v) :: rest) k' = lookupFirst rest k' by
            unfold lookupFirst
            rw [List.find?_cons_of_neg _ (by simp [he'])],
          show lookupFirst (kv :: rest) k' = lookupFirst rest k' by
            unfold lookupFirst
            rw [List.find?_cons_of_neg _ (by simp [he'])]]
    · rw [show upsert (kv :: rest) k v =
          if kv.1 == k then (kv.1, v) :: rest else kv :: upsert rest k v from rfl,
        if_neg (by simp [he])]
      by_cases he' : kv.1 = k'
      · rw [show lookupFirst (kv :: upsert rest k v) k' = some kv.2 by
            unfold lookupFirst
            rw [List.find?_cons_of_pos _ (by simp [he'])]
            rfl,
          show lookupFirst (kv :: rest) k' = some kv.2 by
            unfold lookupFirst
            rw [List.find?_cons_of_pos _ (by simp [he'])]
            rfl]
      · rw [show lookupFirst (kv :: upsert rest k v) k' = lookupFirst (upsert rest k v) k' by
            unfold lookupFirst
            rw [List.find?_cons_of_neg _ (by simp [he'])],
          show lookupFirst (kv :: rest) k' = lookupFirst rest k' by
            unfold lookupFirst
            rw [List.find?_cons_of_neg _ (by simp [he'])]]
        exact ih

theorem applySnippetFiles_frame (env : WriteEnv) (kvs : List (String × Json)) :
    ∀ (files : List (String × FileState)) (succ : Bool) (k : String),
    (∀ kv ∈ kvs, kv.1 ≠ k) →
    lookupFirst (applySnippetFiles env kvs files succ).1 k = lookupFirst files k := by
  induction kvs with
  | nil =>
    intro files succ k _
    rfl
  | cons kv rest ih =>
    intro files succ k h
    obtain ⟨n, c⟩ := kv
    rw [show applySnippetFiles env ((n, c) :: rest) files succ =
        if env.snippetOpenFails n then applySnippetFiles env rest files false
        else applySnippetFiles env rest (upsert files n (.readable (json_dumps c))) succ from rfl]
    by_cases hf : env.snippetOpenFails n
    · rw [if_pos hf]
      exact ih _ _ _ (fun kv hkv => h kv (by simp [hkv]))
    · rw [if_neg hf, ih _ _ _ (fun kv hkv => h kv (by simp [hkv]))]
      exact lookupFirst_upsert_ne _ _ _ _ (Ne.symm (h (n, c) (by simp)))

theorem applySnippetFiles_lookup (env : WriteEnv) (kvs : List (String × Json)) :
    ∀ (files : List (String × FileState)) (succ : Bool) (k : String) (v : Json),
    (k, v) ∈ kvs → (kvs.map Prod.fst).Nodup → env.snippetOpenFails k = false →
    lookupFirst (applySnippetFiles env kvs files succ).1 k =
      some (.readable (json_dumps v)) := by
  induction kvs with
  | nil =>
    intro _ _ _ _ hmem
    simp at hmem
  | cons kv rest ih =>
    intro files succ k v hmem hnd hok
    obtain ⟨n, c⟩ := kv
    rw [show applySnippetFiles env ((n, c) :: rest) files succ =
        if env.snippetOpenFails n then applySnippetFiles env rest files false
        else applySnippetFiles env rest (upsert files n (.readable (json_dumps c))) succ from rfl]
    rcases List.mem_cons.mp hmem with h1 | h1
    · rw [Prod.ext_iff] at h1
      obtain ⟨hk, hv⟩ := h1
      subst hk
      subst hv
      rw [if_neg (by simp [hok])]
      have hfresh : ∀ kv ∈ rest, kv.1 ≠ k := by
        intro kv2 hkv2 he2
        rw [List.map_cons] at hnd
        apply (List.nodup_cons.mp hnd).1
        rw [← he2]
        exact List.mem_map.mpr ⟨kv2, hkv2, rfl⟩
      rw [applySnippetFiles_frame env rest _ _ _ hfresh]
      exact lookupFirst_upsert_self _ _ _
    · have hnk : n ≠ k := by
        intro he
        rw [List.map_cons] at hnd
        apply (List.nodup_cons.mp hnd).1
        rw [he]
        exact List.mem_map.mpr ⟨(k, v), h1, rfl⟩
      have hnd' : (rest.map Prod.fst).Nodup := by
        rw [List.map_cons] at hnd
        exact (List.nodup_cons.mp hnd).2
      by_cases hf : env.snippetOpenFails n
      · rw [if_pos hf]
        exact ih _ _ _ _ h1 hnd' hok
      · rw [if_neg hf]
        exact ih _ _ _ _ h1 hnd' hok

theorem applySnippetFiles_snd (env : WriteEnv) (kvs : List (String × Json)) :
    ∀ (files : List (String × FileState)) (succ : Bool),
    (applySnippetFiles env kvs files succ).2 =
      (succ && kvs.all (fun kv => !(env.snippetOpenFails kv.1))) := by
  induction kvs with
  | nil =>
    intro files succ
    simp [applySnippetFiles]
  | cons kv rest ih =>
    intro files succ
    obtain ⟨n, c⟩ := kv
    rw [show applySnippetFiles env ((n, c) :: rest) files succ =
        if env.snippetOpenFails n then applySnippetFiles env rest files false
        else applySnippetFiles env rest (upsert files n (.readable (json_dumps c))) succ from rfl]
    by_cases hf : env.snippetOpenFails n
    · rw [if_pos hf, ih]
      simp [hf]
    · rw [if_neg hf, ih]
      simp [hf]

theorem applySnippetFiles_noFail_fresh (kvs : List (String × Json)) :
    ∀ (files : List (String × FileState)) (succ : Bool),
    (kvs.map Prod.fst).Nodup →
    (∀ k ∈ kvs.map Prod.fst, k ∉ files.map Prod.fst) →
    applySnippetFiles noFailEnv kvs files succ =
      (files ++ kvs.map (fun kv => (kv.1, FileState.readable (json_dumps kv.2))), succ) := by
  induction kvs with
  | nil =>
    intro files succ _ _
    simp [applySnippetFiles]
  | cons kv rest ih =>
    intro files succ hnd hfresh
    obtain ⟨n, c⟩ := kv
    rw [show applySnippetFiles noFailEnv ((n, c) :: rest) files succ =
        applySnippetFiles noFailEnv rest (upsert files n (.readable (json_dumps c))) succ from rfl]
    rw [upsert_of_not_mem _ _ _ (hfresh n (by simp))]
    rw [List.map_cons] at hnd
    rw [ih _ _ (List.nodup_cons.mp hnd).2 (by
      intro k hk
      rw [List.map_append]
      intro hmem
      rcases List.mem_append.mp hmem with h2 | h2
      · exact hfresh k (by simp [hk]) h2
      · have : k = n := by simpa using h2
        exact (List.nodup_cons.mp hnd).1 (this ▸ hk))]
    simp

theorem scanSnippets_written (m : List (String × Json)) :
    ∀ acc : List (String × Json), (m.map Prod.fst).Nodup →
    (∀ k ∈ m.map Prod.fst, k ∉ acc.map Prod.fst) →
    scanSnippets (m.map (fun kv => (kv.1, FileState.readable (json_dumps kv.2)))) acc =
      acc ++ m := by
  induction m with
  | nil =>
    intro acc _ _
    simp [scanSnippets]
  | cons kv rest ih =>
    intro acc hnd hfresh
    obtain ⟨k, v⟩ := kv
    rw [List.map_cons]
    have step : scanSnippets ((k, FileState.readable (json_dumps v)) ::
        rest.map (fun kv => (kv.1, FileState.readable (json_dumps kv.2)))) acc =
        match json_loads (json_dumps v) with
        | some j =>
          scanSnippets (rest.map (fun kv => (kv.1, FileState.readable (json_dumps kv.2))))
            (upsert acc k j)
        | none =>
          scanSnippets (rest.map (fun kv => (kv.1, FileState.readable (json_dumps kv.2)))) acc :=
      rfl
    rw [step, json_loads_dumps]
    show scanSnippets (rest.map (fun kv => (kv.1, FileState.readable (json_dumps kv.2))))
      (upsert acc k v) = acc ++ (k, v) :: rest
    rw [upsert_of_not_mem _ _ _ (hfresh k (by simp))]
    rw [List.map_cons] at hnd
    rw [ih _ (List.nodup_cons.mp hnd).2 (by
      intro k' hk'
      rw [List.map_append]
      intro hmem
      rcases List.mem_append.mp hmem with h2 | h2
      · exact hfresh k' (by simp [hk']) h2
      · have : k' = k := by simpa using h2
        exact (List.nodup_cons.mp hnd).1 (this ▸ hk'))]
    simp

theorem scanSnippets_keys_nodup (files : List (String × FileState)) :
    ∀ acc : List (String × Json), (acc.map Prod.fst).Nodup →
    ((scanSnippets files acc).map Prod.fst).Nodup := by
  induction files with
  | nil =>
    intro acc h
    exact h
  | cons f rest ih =>
    intro acc h
    obtain ⟨stem, st⟩ := f
    cases st with
    | missing => exact ih acc h
    | ioErr => exact ih acc h
    | readable s =>
      have step : scanSnippets ((stem, FileState.readable s) :: rest) acc =
          match json_loads s with
          | some j => scanSnippets rest (upsert acc stem j)
          | none => scanSnippets rest acc := rfl
      rw [step]
      cases hl : json_loads s with
      | none => exact ih acc h
      | some j =>
        apply ih
        by_cases hmem : stem ∈ acc.map Prod.fst
        · rw [upsert_keys_of_mem _ _ _ hmem]
          exact h
        · rw [upsert_of_not_mem _ _ _ hmem, List.map_append]
          refine List.Nodup.append h (List.nodup_singleton _) ?_
          intro a ha hb
          have : a = stem := by simpa using hb
          exact hmem (this ▸ ha)

theorem scanExtensions_all_obj (es : List ExtEntry) :
    (scanExtensions es).all Json.isObjB = true := by
  induction es with
  | nil => rfl
  | cons e rest ih =>
    unfold scanExtensions
    split
    · split
      · simpa [Json.isObjB] using ih
      · simpa [Json.isObjB] using ih
      · split
        · simpa [Json.isObjB] using ih
        · simpa [Json.isObjB] using ih
        · rfl
    · exact ih

theorem mem_addDir_self (dirs : List String) (d : String) : d ∈ addDir dirs d := by
  unfold addDir
  split
  · assumption
  · exact List.mem_append_right _ (by simp)

theorem mem_addDir_of_mem (dirs : List String) (d a : String) (h : a ∈ dirs) :
    a ∈ addDir dirs d := by
  unfold addDir
  split
  · exact h
  · exact List.mem_append_left _ h


theorem apply_settings_run_nosnip (paths : CursorPaths) (env : WriteEnv) (snap : Snapshot)
    (fs : FS) (h1 : env.mkdirSettingsParentFails = false)
    (h2 : env.mkdirKeybindingsParentFails = false) (h3 : env.mkdirSnippetsParentFails = false)
    (hsn : snap.snippets.truthy = false) :
    apply_settings paths env snap fs =
      finishExtensions snap.extensions (applyStage2FS paths env snap fs)
        (applyStage2Succ env snap) := by
  unfold apply_settings applyStage2FS applyStage2Succ
  simp only [h1, h2, h3, hsn, Bool.false_eq_true, if_false]
  cases hS : snap.settings.truthy <;> cases hSO : env.settingsOpenFails <;>
    cases hK : snap.keybindings.truthy <;> cases hKO : env.keybindingsOpenFails <;>
      simp [hS, hSO, hK, hKO]

theorem apply_settings_run_snip (paths : CursorPaths) (env : WriteEnv) (snap : Snapshot)
    (fs : FS) (kvs : List (String × Json)) (h1 : env.mkdirSettingsParentFails = false)
    (h2 : env.mkdirKeybindingsParentFails = false) (h3 : env.mkdirSnippetsParentFails = false)
    (hsn : snap.snippets = .obj kvs) (ht : Json.truthy (.obj kvs) = true)
    (hmk : env.mkdirSnippetsDirFails = false) :
    apply_settings paths env snap fs =
      finishExtensions snap.extensions
        { applyStage2FS paths env snap fs with
          snippetsDir := .entries
            (applySnippetFiles env kvs (ensureDirEntries fs.snippetsDir)
              (applyStage2Succ env snap)).1
          dirs := addDir (applyStage2FS paths env snap fs).dirs paths.snippets }
        (applySnippetFiles env kvs (ensureDirEntries fs.snippetsDir)
          (applyStage2Succ env snap)).2 := by
  unfold apply_settings applyStage2FS applyStage2Succ
  simp only [h1, h2, h3, hsn, ht, Bool.false_eq_true, if_false, if_true]
  cases hS : snap.settings.truthy <;> cases hSO : env.settingsOpenFails <;>
    cases hK : snap.keybindings.truthy <;> cases hKO : env.keybindingsOpenFails <;>
      simp [hS, hSO, hK, hKO, hmk]

theorem apply_settings_snip_mkdirfail (paths : CursorPaths) (env : WriteEnv) (snap : Snapshot)
    (fs : FS) (kvs : List (String × Json)) (h1 : env.mkdirSettingsParentFails = false)
    (h2 : env.mkdirKeybindingsParentFails = false) (h3 : env.mkdirSnippetsParentFails = false)
    (hsn : snap.snippets = .obj kvs) (ht : Json.truthy (.obj kvs) = true)
    (hmk : env.mkdirSnippetsDirFails = true) :
    apply_settings paths env snap fs = .error .osError := by
  unfold apply_settings
  simp only [h1, h2, h3, hsn, ht, Bool.false_eq_true, if_false, if_true]
  simp [hmk]

theorem apply_settings_snip_nonobj (paths : CursorPaths) (env : WriteEnv) (snap : Snapshot)
    (fs : FS) (h1 : env.mkdirSettingsParentFails = false)
    (h2 : env.mkdirKeybindingsParentFails = false) (h3 : env.mkdirSnippetsParentFails = false)
    (hobj : snap.snippets.isObjB = false) (ht : snap.snippets.truthy = true) :
    apply_settings paths env snap fs = .error .typeError := by
  unfold apply_settings
  simp only [h1, h2, h3, ht, Bool.false_eq_true, if_false, if_true]
  cases hv : snap.snippets with
  | obj kvs => rw [hv] at hobj; exact absurd hobj (by simp [Json.isObjB])
  | null => rfl
  | bool b => rfl
  | num n => rfl
  | str s => rfl
  | arr xs => rfl

theorem finishExtensions_ok (ext : Json) (fs : FS) (succ : Bool) (fs' : FS) (b : Bool)
    (h : finishExtensions ext fs succ = .ok (fs', b)) : fs' = fs ∧ b = succ := by
  unfold finishExtensions at h
  by_cases ht : ext.truthy = true
  · rw [if_pos ht] at h
    cases ext with
    | arr items =>
      by_cases ha : items.all Json.isObjB = true
      · rw [show (match Json.arr items with
            | Json.arr items => if items.all Json.isObjB = true then
                (Except.ok (fs, succ) : Except PyExn (FS × Bool)) else Except.error PyExn.typeError
            | _ => Except.error PyExn.typeError) =
            if items.all Json.isObjB = true then (Except.ok (fs, succ) : Except PyExn (FS × Bool))
            else Except.error PyExn.typeError from rfl, if_pos ha] at h
        injection h with hp
        injection hp with e1 e2
        exact ⟨e1.symm, e2.symm⟩
      · rw [show (match Json.arr items with
            | Json.arr items => if items.all Json.isObjB = true then
                (Except.ok (fs, succ) : Except PyExn (FS × Bool)) else Except.error PyExn.typeError
            | _ => Except.error PyExn.typeError) =
            if items.all Json.isObjB = true then (Except.ok (fs, succ) : Except PyExn (FS × Bool))
            else Except.error PyExn.typeError from rfl, if_neg ha] at h
        exact Except.noConfusion h
    | null => exact Except.noConfusion h
    | bool v => exact Except.noConfusion h
    | num n => exact Except.noConfusion h
    | str s => exact Except.noConfusion h
    | obj kvs => exact Except.noConfusion h
  · rw [if_neg ht] at h
    injection h with hp
    injection hp with e1 e2
    exact ⟨e1.symm, e2.symm⟩

theorem finishExtensions_notruthy (ext : Json) (fs : FS) (succ : Bool)
    (h : ext.truthy = false) : finishExtensions ext fs succ = .ok (fs, succ) := by
  unfold finishExtensions
  rw [if_neg (by simp [h])]

theorem finishExtensions_allobj (items : List Json) (fs : FS) (succ : Bool)
    (ha : items.all Json.isObjB = true) :
    finishExtensions (Json.arr items) fs succ = .ok (fs, succ) := by
  unfold finishExtensions
  by_cases ht : (Json.arr items).truthy = true
  · rw [if_pos ht]
    show (if items.all Json.isObjB = true then (Except.ok (fs, succ) : Except PyExn (FS × Bool))
      else Except.error PyExn.typeError) = Except.ok (fs, succ)
    rw [if_pos ha]
  · rw [if_neg ht]


/-! ## Claims -/

/-- C2: the comment-tolerant keybindings reader splits the input into lines,
drops every line whose left-trimmed form begins with `//`, rejoins the
remainder; if only whitespace remains it reports the absent sentinel (not an
error), otherwise it parses the remainder as strict JSON.  In particular
`"// Empty\n[{\"key\":\"a\"}]"` parses to `[{"key":"a"}]` and an all-comment
input yields the absent sentinel. -/
theorem c2_comment_tolerant_reader :
    (∀ cs : List Char,
      removeCommentLines cs = joinNl ((splitOnNl cs).filter (fun l => !commentLine l))) ∧
    (∀ s : String,
      (removeCommentLines s.data).all isPyWs = true →
      readCommentJson s = CommentJsonResult.noContent) ∧
    (∀ s : String, ∀ j : Json,
      (removeCommentLines s.data).all isPyWs = false →
      json_loads (String.mk (removeCommentLines s.data)) = some j →
      readCommentJson s = CommentJsonResult.parsed j) ∧
    (∀ s : String,
      (removeCommentLines s.data).all isPyWs = false →
      json_loads (String.mk (removeCommentLines s.data)) = none →
      readCommentJson s = CommentJsonResult.parseError) ∧
    readCommentJson "// Empty\n[\x7b\"key\":\"a\"\x7d]" =
      CommentJsonResult.parsed (Json.arr [Json.obj [("key", Json.str "a")]]) ∧
    readCommentJson "// C1\n  // C2" = CommentJsonResult.noContent := by
  refine ⟨fun cs => rfl, ?_, ?_, ?_, rfl, rfl⟩
  · intro s h
    show (if (removeCommentLines s.data).all isPyWs = true then CommentJsonResult.noContent
      else
        match json_loads (String.mk (removeCommentLines s.data)) with
        | some j2 => CommentJsonResult.parsed j2
        | none => CommentJsonResult.parseError) = CommentJsonResult.noContent
    rw [if_pos h]
  · intro s j h1 h2
    show (if (removeCommentLines s.data).all isPyWs = true then CommentJsonResult.noContent
      else
        match json_loads (String.mk (removeCommentLines s.data)) with
        | some j2 => CommentJsonResult.parsed j2
        | none => CommentJsonResult.parseError) = CommentJsonResult.parsed j
    rw [if_neg (by simp [h1]), h2]
  · intro s h1 h2
    show (if (removeCommentLines s.data).all isPyWs = true then CommentJsonResult.noContent
      else
        match json_loads (String.mk (removeCommentLines s.data)) with
        | some j2 => CommentJsonResult.parsed j2
        | none => CommentJsonResult.parseError) = CommentJsonResult.parseError
    rw [if_neg (by simp [h1]), h2]

theorem c2_witness :
    readCommentJson "[1, 2]" = CommentJsonResult.parsed (Json.arr [Json.num 1, Json.num 2]) ∧
    readCommentJson " \n// x" = CommentJsonResult.noContent :=
  ⟨c2_comment_tolerant_reader.2.2.1 "[1, 2]" (Json.arr [Json.num 1, Json.num 2]) rfl rfl,
   c2_comment_tolerant_reader.2.1 " \n// x" rfl⟩

/-- C3: a missing, unreadable or malformed local source yields the
sub-resource's zero value (`{}` for settings, keybindings and snippets, `[]`
for extensions), and collection always returns a full snapshot. -/
theorem c3_zero_values (sys : String) (fs : FS) :
    (fs.settingsFile = FileState.missing ∨ fs.settingsFile = FileState.ioErr ∨
        (∃ s, fs.settingsFile = FileState.readable s ∧ json_loads s = none) →
      (collect_settings sys fs).settings = Json.obj []) ∧
    (fs.keybindingsFile = FileState.missing ∨ fs.keybindingsFile = FileState.ioErr ∨
        (∃ s, fs.keybindingsFile = FileState.readable s ∧
          (readCommentJson s = CommentJsonResult.noContent ∨
            readCommentJson s = CommentJsonResult.parseError)) →
      (collect_settings sys fs).keybindings = Json.obj []) ∧
    (fs.extensionsDir = DirState.missing ∨ fs.extensionsDir = DirState.scanErr →
      (collect_settings sys fs).extensions = Json.arr []) ∧
    (fs.snippetsDir = DirState.missing ∨ fs.snippetsDir = DirState.scanErr →
      (collect_settings sys fs).snippets = Json.obj []) ∧
    (collect_settings sys fs).version = Json.str VERSION ∧
    (collect_settings sys fs).platform = Json.str sys := by
  refine ⟨?_, ?_, ?_, ?_, rfl, rfl⟩
  · intro h
    show (match fs.settingsFile with
      | FileState.readable s => (json_loads s).getD (Json.obj [])
      | _ => Json.obj []) = Json.obj []
    rcases h with h | h | ⟨s, hs, hl⟩
    · rw [h]
    · rw [h]
    · rw [hs]
      show (json_loads s).getD (Json.obj []) = Json.obj []
      rw [hl]
      rfl
  · intro h
    show (match fs.keybindingsFile with
      | FileState.readable s =>
        match readCommentJson s with
        | CommentJsonResult.parsed j => j
        | _ => Json.obj []
      | _ => Json.obj []) = Json.obj []
    rcases h with h | h | ⟨s, hs, hr⟩
    · rw [h]
    · rw [h]
    · rw [hs]
      show (match readCommentJson s with
        | CommentJsonResult.parsed j => j
        | _ => Json.obj []) = Json.obj []
      rcases hr with hr | hr <;> rw [hr]
  · intro h
    show (match fs.extensionsDir with
      | DirState.entries es => Json.arr (scanExtensions es)
      | _ => Json.arr []) = Json.arr []
    rcases h with h | h <;> rw [h]
  · intro h
    show (match fs.snippetsDir with
      | DirState.entries files => Json.obj (scanSnippets files [])
      | _ => Json.obj []) = Json.obj []
    rcases h with h | h <;> rw [h]

theorem c3_witness :
    (collect_settings "Linux" scratchFS).settings = Json.obj [] ∧
    (collect_settings "Linux" scratchFS).keybindings = Json.obj [] ∧
    (collect_settings "Linux" scratchFS).extensions = Json.arr [] ∧
    (collect_settings "Linux" scratchFS).snippets = Json.obj [] :=
  ⟨(c3_zero_values "Linux" scratchFS).1 (Or.inl rfl),
   (c3_zero_values "Linux" scratchFS).2.1 (Or.inl rfl),
   (c3_zero_values "Linux" scratchFS).2.2.1 (Or.inl rfl),
   (c3_zero_values "Linux" scratchFS).2.2.2.1 (Or.inl rfl)⟩

/-- C5 counterexample: an extension directory whose `package.json` is present
and parses — but to a non-object — produces no record at all, and aborts the
scan so that even a later manifest-less directory (which the claim says always
yields `{name: directory_name}`) contributes nothing. -/
theorem c5_counterexample :
    json_loads "[1]" = some (Json.arr [Json.num 1]) ∧
    (collect_settings "Linux"
      ⟨FileState.missing, FileState.missing,
        DirState.entries [⟨"foo", true, FileState.readable "[1]"⟩,
          ⟨"bar", true, FileState.missing⟩],
        DirState.missing, []⟩).extensions = Json.arr [] :=
  ⟨rfl, rfl⟩

/-- C5 (amended): an extension record, when one is produced, always has a
populated name; a missing/unreadable/unparseable manifest degrades the entry
to `{name: directory_name}`; a manifest parsing to an object takes `name`,
`version`, `publisher` from the object with independent fallbacks (directory
name, "unknown", "unknown"); but a manifest parsing to a non-object aborts
the whole scan, discarding that entry and all later ones. -/
theorem c5_manifest_fallback (name : String) (pj : FileState) (rest : List ExtEntry) :
    (pj = FileState.missing ∨ pj = FileState.ioErr ∨
        (∃ s, pj = FileState.readable s ∧ json_loads s = none) →
      scanExtensions (⟨name, true, pj⟩ :: rest) =
        Json.obj [("name", Json.str name)] :: scanExtensions rest) ∧
    (∀ s fields, pj = FileState.readable s → json_loads s = some (Json.obj fields) →
      scanExtensions (⟨name, true, pj⟩ :: rest) =
        Json.obj [("name", jsonGet fields "name" (Json.str name)),
          ("version", jsonGet fields "version" (Json.str "unknown")),
          ("publisher", jsonGet fields "publisher" (Json.str "unknown"))] ::
          scanExtensions rest) ∧
    (∀ s j, pj = FileState.readable s → json_loads s = some j → j.isObjB = false →
      scanExtensions (⟨name, true, pj⟩ :: rest) = []) ∧
    (∀ (es : List ExtEntry) (r : Json), r ∈ scanExtensions es →
      ∃ fields, r = Json.obj fields ∧ (lookupLast fields "name").isSome = true) := by
  refine ⟨?_, ?_, ?_, ?_⟩
  · intro h
    rcases h with h | h | ⟨s, hs, hl⟩
    · subst h
      rfl
    · subst h
      rfl
    · subst hs
      show (match json_loads s with
        | none => Json.obj [("name", Json.str name)] :: scanExtensions rest
        | some (Json.obj fields) =>
          Json.obj [("name", jsonGet fields "name" (Json.str name)),
            ("version", jsonGet fields "version" (Json.str "unknown")),
            ("publisher", jsonGet fields "publisher" (Json.str "unknown"))] ::
            scanExtensions rest
        | some _ => []) = Json.obj [("name", Json.str name)] :: scanExtensions rest
      rw [hl]
  · intro s fields hs hl
    subst hs
    show (match json_loads s with
      | none => Json.obj [("name", Json.str name)] :: scanExtensions rest
      | some (Json.obj fields) =>
        Json.obj [("name", jsonGet fields "name" (Json.str name)),
          ("version", jsonGet fields "version" (Json.str "unknown")),
          ("publisher", jsonGet fields "publisher" (Json.str "unknown"))] ::
          scanExtensions rest
      | some _ => []) = _
    rw [hl]
  · intro s j hs hl hobj
    subst hs
    show (match json_loads s with
      | none => Json.obj [("name", Json.str name)] :: scanExtensions rest
      | some (Json.obj fields) =>
        Json.obj [("name", jsonGet fields "name" (Json.str name)),
          ("version", jsonGet fields "version" (Json.str "unknown")),
          ("publisher", jsonGet fields "publisher" (Json.str "unknown"))] ::
          scanExtensions rest
      | some _ => []) = []
    cases j with
    | obj f => simp [Json.isObjB] at hobj
    | null => rw [hl]
    | bool b => rw [hl]
    | num n => rw [hl]
    | str s2 => rw [hl]
    | arr xs => rw [hl]
  · intro es
    induction es with
    | nil =>
      intro r hr
      exact absurd hr (List.not_mem_nil r)
    | cons e rest2 ih =>
      intro r hr
      obtain ⟨ename, edir, epj⟩ := e
      cases edir with
      | false => exact ih r hr
      | true =>
        cases epj with
        | missing =>
          rcases List.mem_cons.mp hr with h1 | h1
          · exact ⟨[("name", Json.str ename)], h1, rfl⟩
          · exact ih r h1
        | ioErr =>
          rcases List.mem_cons.mp hr with h1 | h1
          · exact ⟨[("name", Json.str ename)], h1, rfl⟩
          · exact ih r h1
        | readable s =>
          have hr2 : r ∈ (match json_loads s with
            | none => Json.obj [("name", Json.str ename)] :: scanExtensions rest2
            | some (Json.obj fields) =>
              Json.obj [("name", jsonGet fields "name" (Json.str ename)),
                ("version", jsonGet fields "version" (Json.str "unknown")),
                ("publisher", jsonGet fields "publisher" (Json.str "unknown"))] ::
                scanExtensions rest2
            | some _ => []) := hr
          cases hl : json_loads s with
          | none =>
            rw [hl] at hr2
            rcases List.mem_cons.mp hr2 with h1 | h1
            · exact ⟨[("name", Json.str ename)], h1, rfl⟩
            · exact ih r h1
          | some j =>
            cases j with
            | obj fields =>
              rw [hl] at hr2
              rcases List.mem_cons.mp hr2 with h1 | h1
              · exact ⟨[("name", jsonGet fields "name" (Json.str ename)),
                  ("version", jsonGet fields "version" (Json.str "unknown")),
                  ("publisher", jsonGet fields "publisher" (Json.str "unknown"))], h1, rfl⟩
              · exact ih r h1
            | null =>
              rw [hl] at hr2
              exact absurd hr2 (List.not_mem_nil r)
            | bool b =>
              rw [hl] at hr2
              exact absurd hr2 (List.not_mem_nil r)
            | num n =>
              rw [hl] at hr2
              exact absurd hr2 (List.not_mem_nil r)
            | str s2 =>
              rw [hl] at hr2
              exact absurd hr2 (List.not_mem_nil r)
            | arr xs =>
              rw [hl] at hr2
              exact absurd hr2 (List.not_mem_nil r)

theorem c5_witness :
    scanExtensions [⟨"foo-bar", true, FileState.missing⟩] =
      [Json.obj [("name", Json.str "foo-bar")]] := by
  have h := (c5_manifest_fallback "foo-bar" FileState.missing []).1 (Or.inl rfl)
  rw [h]
  rfl

/-- C8: the transport find operation returns the id of the first listed gist
whose description exactly equals the fixed sync label, and returns none both
when no description matches and when the listing call itself fails. -/
theorem c8_find_first_match :
    (find_existing_gist (Except.error ()) = none) ∧
    (∀ gists : List GistEntry, (∀ g ∈ gists, g.description ≠ some GIST_DESCRIPTION) →
      find_existing_gist (Except.ok gists) = none) ∧
    (∀ (pre : List GistEntry) (g : GistEntry) (post : List GistEntry),
      (∀ g2 ∈ pre, g2.description ≠ some GIST_DESCRIPTION) →
      g.description = some GIST_DESCRIPTION →
      find_existing_gist (Except.ok (pre ++ g :: post)) = some g.id) := by
  refine ⟨rfl, ?_, ?_⟩
  · intro gists h
    show Option.map (fun g => g.id)
      (List.find? (fun g => g.description == some GIST_DESCRIPTION) gists) = none
    rw [List.find?_eq_none.mpr (fun g hg => by simpa using h g hg)]
    rfl
  · intro pre g post hpre hg
    have key : ∀ pre2 : List GistEntry, (∀ g2 ∈ pre2, g2.description ≠ some GIST_DESCRIPTION) →
        List.find? (fun g2 => g2.description == some GIST_DESCRIPTION) (pre2 ++ g :: post) =
          some g := by
      intro pre2 hpre2
      induction pre2 with
      | nil =>
        rw [List.nil_append, List.find?_cons_of_pos _ (by simp [hg])]
      | cons p rest ih =>
        rw [List.cons_append, List.find?_cons_of_neg _ (by simpa using hpre2 p (by simp))]
        exact ih (fun g2 h2 => hpre2 g2 (by simp [h2]))
    show Option.map (fun g2 => g2.id)
      (List.find? (fun g2 => g2.description == some GIST_DESCRIPTION) (pre ++ g :: post)) =
      some g.id
    rw [key pre hpre]
    rfl

theorem c8_witness :
    find_existing_gist (Except.ok [⟨some "other", "g1"⟩, ⟨some GIST_DESCRIPTION, "g2"⟩,
      ⟨some GIST_DESCRIPTION, "g3"⟩]) = some "g2" ∧
    find_existing_gist (Except.ok [⟨none, "g1"⟩]) = none := by
  constructor
  · refine c8_find_first_match.2.2 [⟨some "other", "g1"⟩] ⟨some GIST_DESCRIPTION, "g2"⟩
      [⟨some GIST_DESCRIPTION, "g3"⟩] ?_ rfl
    intro g2 hg2
    have := List.mem_singleton.mp hg2
    subst this
    decide
  · refine c8_find_first_match.2.1 [⟨none, "g1"⟩] ?_
    intro g2 hg2
    have := List.mem_singleton.mp hg2
    subst this
    decide

theorem applyStage2FS_settings (paths : CursorPaths) (env : WriteEnv) (snap : Snapshot)
    (fs : FS) (h : snap.settings.truthy = true) (ho : env.settingsOpenFails = false) :
    (applyStage2FS paths env snap fs).settingsFile =
      FileState.readable (json_dumps snap.settings) := by
  show (if snap.settings.truthy && !env.settingsOpenFails then
    FileState.readable (json_dumps snap.settings) else fs.settingsFile) = _
  rw [h, ho]
  rfl

theorem applyStage2FS_keybindings (paths : CursorPaths) (env : WriteEnv) (snap : Snapshot)
    (fs : FS) (h : snap.keybindings.truthy = true) (ho : env.keybindingsOpenFails = false) :
    (applyStage2FS paths env snap fs).keybindingsFile =
      FileState.readable (kbText snap.keybindings) := by
  show (if snap.keybindings.truthy && !env.keybindingsOpenFails then
    FileState.readable (kbText snap.keybindings) else fs.keybindingsFile) = _
  rw [h, ho]
  rfl

theorem apply_settings_ok_shape (paths : CursorPaths) (env : WriteEnv) (snap : Snapshot)
    (fs : FS) (fs2 : FS) (b : Bool) (h1 : env.mkdirSettingsParentFails = false)
    (h2 : env.mkdirKeybindingsParentFails = false) (h3 : env.mkdirSnippetsParentFails = false)
    (h : apply_settings paths env snap fs = .ok (fs2, b)) :
    fs2.settingsFile = (applyStage2FS paths env snap fs).settingsFile ∧
    fs2.keybindingsFile = (applyStage2FS paths env snap fs).keybindingsFile ∧
    dirname paths.settings ∈ fs2.dirs ∧ dirname paths.keybindings ∈ fs2.dirs ∧
    dirname paths.snippets ∈ fs2.dirs := by
  cases hsn : snap.snippets.truthy with
  | false =>
    rw [apply_settings_run_nosnip paths env snap fs h1 h2 h3 hsn] at h
    obtain ⟨hfs, _⟩ := finishExtensions_ok _ _ _ _ _ h
    subst hfs
    refine ⟨rfl, rfl, ?_, ?_, ?_⟩
    · exact mem_addDir_of_mem _ _ _ (mem_addDir_of_mem _ _ _ (mem_addDir_self _ _))
    · exact mem_addDir_of_mem _ _ _ (mem_addDir_self _ _)
    · exact mem_addDir_self _ _
  | true =>
    cases hv : snap.snippets with
    | obj kvs =>
      cases hmk : env.mkdirSnippetsDirFails with
      | true =>
        rw [apply_settings_snip_mkdirfail paths env snap fs kvs h1 h2 h3 hv
          (hv ▸ hsn) hmk] at h
        exact Except.noConfusion h
      | false =>
        rw [apply_settings_run_snip paths env snap fs kvs h1 h2 h3 hv (hv ▸ hsn) hmk] at h
        obtain ⟨hfs, _⟩ := finishExtensions_ok _ _ _ _ _ h
        subst hfs
        refine ⟨rfl, rfl, ?_, ?_, ?_⟩
        · exact mem_addDir_of_mem _ _ _
            (mem_addDir_of_mem _ _ _ (mem_addDir_of_mem _ _ _ (mem_addDir_self _ _)))
        · exact mem_addDir_of_mem _ _ _ (mem_addDir_of_mem _ _ _ (mem_addDir_self _ _))
        · exact mem_addDir_of_mem _ _ _ (mem_addDir_self _ _)
    | null =>
      rw [apply_settings_snip_nonobj paths env snap fs h1 h2 h3 (by rw [hv]; rfl) hsn] at h
      exact Except.noConfusion h
    | bool v =>
      rw [apply_settings_snip_nonobj paths env snap fs h1 h2 h3 (by rw [hv]; rfl) hsn] at h
      exact Except.noConfusion h
    | num n =>
      rw [apply_settings_snip_nonobj paths env snap fs h1 h2 h3 (by rw [hv]; rfl) hsn] at h
      exact Except.noConfusion h
    | str s =>
      rw [apply_settings_snip_nonobj paths env snap fs h1 h2 h3 (by rw [hv]; rfl) hsn] at h
      exact Except.noConfusion h
    | arr xs =>
      rw [apply_settings_snip_nonobj paths env snap fs h1 h2 h3 (by rw [hv]; rfl) hsn] at h
      exact Except.noConfusion h

/-- C9: `apply_settings` gates each write on Python truthiness of the
snapshot value, not on presence: when settings, keybindings and snippets are
all falsy JSON values the files are untouched, nothing is written, and the
skipping leaves the aggregate flag `true`; the listed falsy values (`[]`,
`false`, `0`, `""`, `null`, `{}`) are all skipped this way. -/
theorem c9_truthiness_skip (paths : CursorPaths) (env : WriteEnv) (snap : Snapshot) (fs : FS)
    (h1 : env.mkdirSettingsParentFails = false) (h2 : env.mkdirKeybindingsParentFails = false)
    (h3 : env.mkdirSnippetsParentFails = false) (hS : snap.settings.truthy = false)
    (hK : snap.keybindings.truthy = false) (hsn : snap.snippets.truthy = false) :
    apply_settings paths env snap fs =
      finishExtensions snap.extensions
        { fs with dirs := addDir (addDir (addDir fs.dirs (dirname paths.settings))
            (dirname paths.keybindings)) (dirname paths.snippets) } true ∧
    Json.truthy (Json.arr []) = false ∧ Json.truthy (Json.bool false) = false ∧
    Json.truthy (Json.num 0) = false ∧ Json.truthy (Json.str "") = false ∧
    Json.truthy Json.null = false ∧ Json.truthy (Json.obj []) = false := by
  refine ⟨?_, by decide, by decide, by decide, by decide, by decide, by decide⟩
  rw [apply_settings_run_nosnip paths env snap fs h1 h2 h3 hsn]
  have e1 : applyStage2FS paths env snap fs =
      { fs with dirs := addDir (addDir (addDir fs.dirs (dirname paths.settings))
          (dirname paths.keybindings)) (dirname paths.snippets) } := by
    simp [applyStage2FS, hS, hK]
  have e2 : applyStage2Succ env snap = true := by
    simp [applyStage2Succ, hS, hK]
  rw [e1, e2]

theorem c9_witness :
    apply_settings paths0 noFailEnv
      ⟨Json.str "1.0", Json.str "Linux", Json.obj [], Json.arr [], Json.null, Json.obj []⟩
      scratchFS =
      finishExtensions Json.null
        { scratchFS with dirs := addDir (addDir (addDir scratchFS.dirs (dirname paths0.settings))
            (dirname paths0.keybindings)) (dirname paths0.snippets) } true :=
  (c9_truthiness_skip paths0 noFailEnv
    ⟨Json.str "1.0", Json.str "Linux", Json.obj [], Json.arr [], Json.null, Json.obj []⟩
    scratchFS rfl rfl rfl rfl rfl rfl).1

/-- C10: `apply_settings` creates the parent directories of the settings,
keybindings and snippets destinations before examining the snapshot: every
successful run ends with all three in the directory set, and an all-falsy
snapshot still creates them, changes no file, and returns `true`. -/
theorem c10_unconditional_mkdirs (paths : CursorPaths) (env : WriteEnv) (snap : Snapshot)
    (fs : FS) (h1 : env.mkdirSettingsParentFails = false)
    (h2 : env.mkdirKeybindingsParentFails = false)
    (h3 : env.mkdirSnippetsParentFails = false) :
    (∀ fs2 b, apply_settings paths env snap fs = .ok (fs2, b) →
      dirname paths.settings ∈ fs2.dirs ∧ dirname paths.keybindings ∈ fs2.dirs ∧
        dirname paths.snippets ∈ fs2.dirs) ∧
    (snap.settings.truthy = false → snap.keybindings.truthy = false →
      snap.snippets.truthy = false → snap.extensions.truthy = false →
      apply_settings paths env snap fs = .ok
        ({ fs with dirs := addDir (addDir (addDir fs.dirs (dirname paths.settings))
            (dirname paths.keybindings)) (dirname paths.snippets) }, true)) := by
  constructor
  · intro fs2 b h
    obtain ⟨_, _, d⟩ := apply_settings_ok_shape paths env snap fs fs2 b h1 h2 h3 h
    exact d
  · intro hS hK hsn hext
    rw [apply_settings_run_nosnip paths env snap fs h1 h2 h3 hsn,
      finishExtensions_notruthy _ _ _ hext]
    have e1 : applyStage2FS paths env snap fs =
        { fs with dirs := addDir (addDir (addDir fs.dirs (dirname paths.settings))
            (dirname paths.keybindings)) (dirname paths.snippets) } := by
      simp [applyStage2FS, hS, hK]
    have e2 : applyStage2Succ env snap = true := by
      simp [applyStage2Succ, hS, hK]
    rw [e1, e2]

theorem c10_witness :
    apply_settings paths0 noFailEnv
      ⟨Json.str "1.0", Json.str "Linux", Json.null, Json.null, Json.null, Json.null⟩
      scratchFS = .ok
      ({ scratchFS with dirs := addDir (addDir (addDir scratchFS.dirs (dirname paths0.settings))
          (dirname paths0.keybindings)) (dirname paths0.snippets) }, true) :=
  (c10_unconditional_mkdirs paths0 noFailEnv
    ⟨Json.str "1.0", Json.str "Linux", Json.null, Json.null, Json.null, Json.null⟩
    scratchFS rfl rfl rfl).2 rfl rfl rfl rfl

/-- C4 counterexample: a directory-creation failure during `apply_settings`
does not count toward the aggregate boolean and does not let the remaining
sub-resources be processed — even with a truthy settings value to write, the
call aborts with an uncaught `OSError`. -/
theorem c4_counterexample :
    apply_settings paths0 ⟨false, false, fun _ => false, true, false, false, false⟩
      ⟨Json.str "1.0", Json.str "Linux", Json.obj [("a", Json.num 1)], Json.null, Json.null,
        Json.null⟩ scratchFS = .error PyExn.osError :=
  rfl

/-- C4 (amended): a per-file write failure (`IOError` from `open`) is recorded
in the aggregate flag while the remaining sub-resources are still processed,
and the run returns `false` exactly when some attempted file write failed;
directory-creation failures, by contrast, abort `apply_settings` with an
uncaught `OSError` and never reach the aggregate flag. -/
theorem c4_write_failures (paths : CursorPaths) (env : WriteEnv) (snap : Snapshot) (fs : FS) :
    (env.mkdirSettingsParentFails = false → env.mkdirKeybindingsParentFails = false →
      env.mkdirSnippetsParentFails = false → snap.snippets.truthy = false →
      snap.extensions.truthy = false →
      apply_settings paths env snap fs =
        .ok (applyStage2FS paths env snap fs, applyStage2Succ env snap)) ∧
    (∀ kvs : List (String × Json), env.mkdirSettingsParentFails = false →
      env.mkdirKeybindingsParentFails = false → env.mkdirSnippetsParentFails = false →
      env.mkdirSnippetsDirFails = false → snap.snippets = Json.obj kvs → kvs ≠ [] →
      snap.extensions.truthy = false →
      (apply_settings paths env snap fs).map Prod.snd =
        .ok (applyStage2Succ env snap && kvs.all (fun kv => !env.snippetOpenFails kv.1))) ∧
    (env.mkdirSettingsParentFails = true →
      apply_settings paths env snap fs = .error PyExn.osError) ∧
    (∀ kvs : List (String × Json), env.mkdirSettingsParentFails = false →
      env.mkdirKeybindingsParentFails = false → env.mkdirSnippetsParentFails = false →
      env.mkdirSnippetsDirFails = true → snap.snippets = Json.obj kvs → kvs ≠ [] →
      apply_settings paths env snap fs = .error PyExn.osError) := by
  refine ⟨?_, ?_, ?_, ?_⟩
  · intro h1 h2 h3 hsn hext
    rw [apply_settings_run_nosnip paths env snap fs h1 h2 h3 hsn,
      finishExtensions_notruthy _ _ _ hext]
  · intro kvs h1 h2 h3 hmk hsn hne hext
    have htr : Json.truthy (Json.obj kvs) = true := by
      cases kvs with
      | nil => exact absurd rfl hne
      | cons a l => rfl
    rw [apply_settings_run_snip paths env snap fs kvs h1 h2 h3 hsn htr hmk,
      finishExtensions_notruthy _ _ _ hext]
    show Except.ok
      ((applySnippetFiles env kvs (ensureDirEntries fs.snippetsDir)
        (applyStage2Succ env snap)).2) = _
    rw [applySnippetFiles_snd]
  · intro h1
    unfold apply_settings
    rw [h1]
    rfl
  · intro kvs h1 h2 h3 hmk hsn hne
    have htr : Json.truthy (Json.obj kvs) = true := by
      cases kvs with
      | nil => exact absurd rfl hne
      | cons a l => rfl
    exact apply_settings_snip_mkdirfail paths env snap fs kvs h1 h2 h3 hsn htr hmk

theorem c4_witness :
    apply_settings paths0 ⟨true, false, fun _ => false, false, false, false, false⟩
      ⟨Json.str "1.0", Json.str "Linux", Json.obj [("a", Json.num 1)],
        Json.obj [("k", Json.str "x")], Json.null, Json.null⟩ scratchFS =
      .ok (applyStage2FS paths0 ⟨true, false, fun _ => false, false, false, false, false⟩
        ⟨Json.str "1.0", Json.str "Linux", Json.obj [("a", Json.num 1)],
          Json.obj [("k", Json.str "x")], Json.null, Json.null⟩ scratchFS, false) ∧
    apply_settings paths0 ⟨false, false, fun _ => false, true, false, false, false⟩
      ⟨Json.str "1.0", Json.str "Linux", Json.obj [("a", Json.num 1)],
        Json.obj [("k", Json.str "x")], Json.null, Json.null⟩ scratchFS =
      .error PyExn.osError := by
  constructor
  · exact (c4_write_failures paths0 ⟨true, false, fun _ => false, false, false, false, false⟩
      ⟨Json.str "1.0", Json.str "Linux", Json.obj [("a", Json.num 1)],
        Json.obj [("k", Json.str "x")], Json.null, Json.null⟩ scratchFS).1 rfl rfl rfl rfl rfl
  · exact (c4_write_failures paths0 ⟨false, false, fun _ => false, true, false, false, false⟩
      ⟨Json.str "1.0", Json.str "Linux", Json.obj [("a", Json.num 1)],
        Json.obj [("k", Json.str "x")], Json.null, Json.null⟩ scratchFS).2.2.1 rfl

/-- C6: for a truthy keybindings value the applier writes exactly the fixed
comment line `// Empty`, a newline, then the pretty-JSON serialization; the
resulting text is recovered verbatim by the comment-tolerant reader but is
rejected by the strict JSON parser. -/
theorem c6_keybindings_file_format (j : Json) :
    kbText j = "// Empty\n" ++ json_dumps j ∧
    readCommentJson (kbText j) = CommentJsonResult.parsed j ∧
    json_loads (kbText j) = none ∧
    (∀ paths env snap fs fs2 b, env.mkdirSettingsParentFails = false →
      env.mkdirKeybindingsParentFails = false → env.mkdirSnippetsParentFails = false →
      env.keybindingsOpenFails = false → snap.keybindings.truthy = true →
      apply_settings paths env snap fs = .ok (fs2, b) →
      fs2.keybindingsFile = FileState.readable (kbText snap.keybindings)) := by
  refine ⟨rfl, readCommentJson_kbText j, json_loads_kbText j, ?_⟩
  intro paths env snap fs fs2 b h1 h2 h3 hKO hK h
  obtain ⟨_, hkb, _⟩ := apply_settings_ok_shape paths env snap fs fs2 b h1 h2 h3 h
  rw [hkb]
  exact applyStage2FS_keybindings paths env snap fs hK hKO

theorem c6_witness :
    readCommentJson (kbText (Json.arr [Json.obj [("key", Json.str "a")]])) =
      CommentJsonResult.parsed (Json.arr [Json.obj [("key", Json.str "a")]]) ∧
    json_loads (kbText (Json.arr [Json.obj [("key", Json.str "a")]])) = none ∧
    FS.keybindingsFile
      ⟨FileState.missing,
        FileState.readable (kbText (Json.arr [Json.obj [("key", Json.str "a")]])),
        DirState.missing, DirState.missing, ["/r/User"]⟩ =
      FileState.readable (kbText (Json.arr [Json.obj [("key", Json.str "a")]])) := by
  refine ⟨(c6_keybindings_file_format (Json.arr [Json.obj [("key", Json.str "a")]])).2.1,
    (c6_keybindings_file_format (Json.arr [Json.obj [("key", Json.str "a")]])).2.2.1, ?_⟩
  exact (c6_keybindings_file_format (Json.arr [Json.obj [("key", Json.str "a")]])).2.2.2
    paths0 noFailEnv
    ⟨Json.str "1.0", Json.str "Linux", Json.null,
      Json.arr [Json.obj [("key", Json.str "a")]], Json.null, Json.null⟩
    scratchFS
    ⟨FileState.missing,
      FileState.readable (kbText (Json.arr [Json.obj [("key", Json.str "a")]])),
      DirState.missing, DirState.missing, ["/r/User"]⟩
    true rfl rfl rfl rfl rfl rfl

/-- C7: for a non-empty snippets mapping the applier ensures the snippets
directory exists and writes one file per entry, keyed by the entry's name and
containing the pretty-JSON serialization of its value, while files whose names
match no incoming key keep their previous content. -/
theorem c7_snippets_additive (paths : CursorPaths) (env : WriteEnv) (snap : Snapshot)
    (fs : FS) (kvs : List (String × Json)) (files : List (String × FileState)) (fs2 : FS)
    (b : Bool) (h1 : env.mkdirSettingsParentFails = false)
    (h2 : env.mkdirKeybindingsParentFails = false) (h3 : env.mkdirSnippetsParentFails = false)
    (hmk : env.mkdirSnippetsDirFails = false) (hsn : snap.snippets = Json.obj kvs)
    (hne : kvs ≠ []) (hnd : (kvs.map Prod.fst).Nodup)
    (hfiles : fs.snippetsDir = DirState.entries files)
    (h : apply_settings paths env snap fs = .ok (fs2, b)) :
    paths.snippets ∈ fs2.dirs ∧
    ∃ written, fs2.snippetsDir = DirState.entries written ∧
      (∀ k v, (k, v) ∈ kvs → env.snippetOpenFails k = false →
        lookupFirst written k = some (FileState.readable (json_dumps v))) ∧
      (∀ k, (∀ kv ∈ kvs, kv.1 ≠ k) → lookupFirst written k = lookupFirst files k) := by
  have htr : Json.truthy (Json.obj kvs) = true := by
    cases kvs with
    | nil => exact absurd rfl hne
    | cons a l => rfl
  rw [apply_settings_run_snip paths env snap fs kvs h1 h2 h3 hsn htr hmk] at h
  obtain ⟨hfs, _⟩ := finishExtensions_ok _ _ _ _ _ h
  subst hfs
  refine ⟨mem_addDir_self _ _,
    (applySnippetFiles env kvs (ensureDirEntries fs.snippetsDir)
      (applyStage2Succ env snap)).1, rfl, ?_, ?_⟩
  · intro k v hmem hok
    exact applySnippetFiles_lookup env kvs _ _ k v hmem hnd hok
  · intro k hk
    rw [applySnippetFiles_frame env kvs _ _ k hk, hfiles]
    rfl

theorem c7_witness :
    "/r/User/snippets" ∈ FS.dirs
      ⟨FileState.missing, FileState.missing, DirState.missing,
        DirState.entries [("old", FileState.readable "{}"),
          ("python", FileState.readable (json_dumps (Json.obj [("body", Json.str "x")])))],
        ["/r/User", "/r/User/snippets"]⟩ ∧
    ∃ written,
      FS.snippetsDir
        ⟨FileState.missing, FileState.missing, DirState.missing,
          DirState.entries [("old", FileState.readable "{}"),
            ("python", FileState.readable (json_dumps (Json.obj [("body", Json.str "x")])))],
          ["/r/User", "/r/User/snippets"]⟩ = DirState.entries written ∧
      (∀ k v, (k, v) ∈ [("python", Json.obj [("body", Json.str "x")])] →
        WriteEnv.snippetOpenFails noFailEnv k = false →
        lookupFirst written k = some (FileState.readable (json_dumps v))) ∧
      (∀ k, (∀ kv ∈ [("python", Json.obj [("body", Json.str "x")])], kv.1 ≠ k) →
        lookupFirst written k = lookupFirst [("old", FileState.readable "{}")] k) :=
  c7_snippets_additive paths0 noFailEnv
    ⟨Json.str "1.0", Json.str "Linux", Json.null, Json.null, Json.null,
      Json.obj [("python", Json.obj [("body", Json.str "x")])]⟩
    ⟨FileState.missing, FileState.missing, DirState.missing,
      DirState.entries [("old", FileState.readable "{}")], []⟩
    [("python", Json.obj [("body", Json.str "x")])]
    [("old", FileState.readable "{}")]
    ⟨FileState.missing, FileState.missing, DirState.missing,
      DirState.entries [("old", FileState.readable "{}"),
        ("python", FileState.readable (json_dumps (Json.obj [("body", Json.str "x")])))],
      ["/r/User", "/r/User/snippets"]⟩
    true rfl rfl rfl rfl rfl (by intro h; cases h) (by decide) rfl rfl

/-- C1 counterexample: a snapshot whose extensions list records one (manifest
less) installed extension applies cleanly into a scratch root, but collecting
again loses the extension names entirely — the applier never writes the
extensions list, so the second collection sees an absent extensions directory
and returns `[]`. -/
theorem c1_counterexample :
    (collect_settings "Linux"
      ⟨FileState.missing, FileState.missing,
        DirState.entries [⟨"foo", true, FileState.missing⟩], DirState.missing, []⟩).extensions =
      Json.arr [Json.obj [("name", Json.str "foo")]] ∧
    apply_settings paths0 noFailEnv
      (collect_settings "Linux"
        ⟨FileState.missing, FileState.missing,
          DirState.entries [⟨"foo", true, FileState.missing⟩], DirState.missing, []⟩)
      scratchFS =
      .ok (⟨FileState.missing, FileState.missing, DirState.missing, DirState.missing,
        ["/r/User"]⟩, true) ∧
    (collect_settings "Linux"
      ⟨FileState.missing, FileState.missing, DirState.missing, DirState.missing,
        ["/r/User"]⟩).extensions = Json.arr [] :=
  ⟨rfl, rfl, rfl⟩

/-- C1 (amended): applying a collected snapshot into a scratch root always
succeeds with aggregate `true`, and a second collection reproduces the
settings, keybindings and snippets sub-resources whenever they were truthy
(the keybindings comment line written by the applier is stripped back out by
the reader); the extensions sub-resource, which the applier never writes,
re-collects as the empty list. -/
theorem c1_round_trip (sys : String) (fs0 : FS) (paths : CursorPaths) :
    ∃ fs1 : FS,
      apply_settings paths noFailEnv (collect_settings sys fs0) scratchFS = .ok (fs1, true) ∧
      ((collect_settings sys fs0).settings.truthy = true →
        (collect_settings sys fs1).settings = (collect_settings sys fs0).settings) ∧
      ((collect_settings sys fs0).keybindings.truthy = true →
        (collect_settings sys fs1).keybindings = (collect_settings sys fs0).keybindings) ∧
      ((collect_settings sys fs0).snippets.truthy = true →
        (collect_settings sys fs1).snippets = (collect_settings sys fs0).snippets) ∧
      (collect_settings sys fs1).extensions = Json.arr [] := by
  have hsucc : applyStage2Succ noFailEnv (collect_settings sys fs0) = true := by
    simp [applyStage2Succ, noFailEnv]
  have hext : ∃ items, (collect_settings sys fs0).extensions = Json.arr items ∧
      items.all Json.isObjB = true := by
    cases hx : fs0.extensionsDir with
    | missing =>
      refine ⟨[], ?_, rfl⟩
      show (match fs0.extensionsDir with
        | DirState.entries es => Json.arr (scanExtensions es)
        | _ => Json.arr []) = Json.arr []
      rw [hx]
    | scanErr =>
      refine ⟨[], ?_, rfl⟩
      show (match fs0.extensionsDir with
        | DirState.entries es => Json.arr (scanExtensions es)
        | _ => Json.arr []) = Json.arr []
      rw [hx]
    | entries es =>
      refine ⟨scanExtensions es, ?_, scanExtensions_all_obj es⟩
      show (match fs0.extensionsDir with
        | DirState.entries es => Json.arr (scanExtensions es)
        | _ => Json.arr []) = Json.arr (scanExtensions es)
      rw [hx]
  obtain ⟨items, hitems, hallobj⟩ := hext
  have hsnipobj : ∃ m, (collect_settings sys fs0).snippets = Json.obj m ∧
      (m.map Prod.fst).Nodup := by
    cases hx : fs0.snippetsDir with
    | missing =>
      refine ⟨[], ?_, by simp⟩
      show (match fs0.snippetsDir with
        | DirState.entries files => Json.obj (scanSnippets files [])
        | _ => Json.obj []) = Json.obj []
      rw [hx]
    | scanErr =>
      refine ⟨[], ?_, by simp⟩
      show (match fs0.snippetsDir with
        | DirState.entries files => Json.obj (scanSnippets files [])
        | _ => Json.obj []) = Json.obj []
      rw [hx]
    | entries files =>
      refine ⟨scanSnippets files [], ?_, scanSnippets_keys_nodup files [] (by simp)⟩
      show (match fs0.snippetsDir with
        | DirState.entries files => Json.obj (scanSnippets files [])
        | _ => Json.obj []) = Json.obj (scanSnippets files [])
      rw [hx]
  obtain ⟨m, hm, hnd⟩ := hsnipobj
  have hcs : ∀ x : FS,
      x.settingsFile = FileState.readable (json_dumps (collect_settings sys fs0).settings) →
      (collect_settings sys x).settings = (collect_settings sys fs0).settings := by
    intro x hx
    show (match x.settingsFile with
      | FileState.readable s => (json_loads s).getD (Json.obj [])
      | _ => Json.obj []) = _
    rw [hx]
    show (json_loads (json_dumps (collect_settings sys fs0).settings)).getD (Json.obj []) = _
    rw [json_loads_dumps]
    rfl
  have hck : ∀ x : FS,
      x.keybindingsFile = FileState.readable (kbText (collect_settings sys fs0).keybindings) →
      (collect_settings sys x).keybindings = (collect_settings sys fs0).keybindings := by
    intro x hx
    show (match x.keybindingsFile with
      | FileState.readable s =>
        match readCommentJson s with
        | CommentJsonResult.parsed j => j
        | _ => Json.obj []
      | _ => Json.obj []) = _
    rw [hx]
    show (match readCommentJson (kbText (collect_settings sys fs0).keybindings) with
      | CommentJsonResult.parsed j => j
      | _ => Json.obj []) = _
    rw [readCommentJson_kbText]
  have hce : ∀ x : FS, x.extensionsDir = DirState.missing →
      (collect_settings sys x).extensions = Json.arr [] := by
    intro x hx
    show (match x.extensionsDir with
      | DirState.entries es => Json.arr (scanExtensions es)
      | _ => Json.arr []) = Json.arr []
    rw [hx]
  have hcsn : ∀ x : FS,
      x.snippetsDir = DirState.entries (m.map fun kv =>
        (kv.1, FileState.readable (json_dumps kv.2))) →
      (collect_settings sys x).snippets = Json.obj m := by
    intro x hx
    show (match x.snippetsDir with
      | DirState.entries files => Json.obj (scanSnippets files [])
      | _ => Json.obj []) = Json.obj m
    rw [hx]
    show Json.obj (scanSnippets (m.map fun kv =>
      (kv.1, FileState.readable (json_dumps kv.2))) []) = Json.obj m
    rw [scanSnippets_written m [] hnd (by simp)]
    rfl
  by_cases hm0 : m = []
  · subst hm0
    have hsnf : (collect_settings sys fs0).snippets.truthy = false := by
      rw [hm]
      rfl
    refine ⟨applyStage2FS paths noFailEnv (collect_settings sys fs0) scratchFS,
      ?_, ?_, ?_, ?_, ?_⟩
    · rw [apply_settings_run_nosnip paths noFailEnv (collect_settings sys fs0) scratchFS
        rfl rfl rfl hsnf, hsucc, hitems]
      exact finishExtensions_allobj items _ true hallobj
    · intro hjs
      exact hcs _ (applyStage2FS_settings paths noFailEnv (collect_settings sys fs0)
        scratchFS hjs rfl)
    · intro hjk
      exact hck _ (applyStage2FS_keybindings paths noFailEnv (collect_settings sys fs0)
        scratchFS hjk rfl)
    · intro hjsn
      rw [hm] at hjsn
      exact absurd hjsn (by decide)
    · exact hce _ rfl
  · have htr : Json.truthy (Json.obj m) = true := by
      cases m with
      | nil => exact absurd rfl hm0
      | cons a l => rfl
    refine ⟨{ applyStage2FS paths noFailEnv (collect_settings sys fs0) scratchFS with
      snippetsDir := DirState.entries (m.map fun kv =>
        (kv.1, FileState.readable (json_dumps kv.2)))
      dirs := addDir (applyStage2FS paths noFailEnv (collect_settings sys fs0) scratchFS).dirs
        paths.snippets }, ?_, ?_, ?_, ?_, ?_⟩
    · rw [apply_settings_run_snip paths noFailEnv (collect_settings sys fs0) scratchFS m
        rfl rfl rfl hm htr rfl]
      rw [show ensureDirEntries scratchFS.snippetsDir = ([] : List (String × FileState))
        from rfl]
      rw [hsucc]
      rw [applySnippetFiles_noFail_fresh m [] true hnd (by simp)]
      rw [hitems]
      exact finishExtensions_allobj items _ _ hallobj
    · intro hjs
      exact hcs _ (applyStage2FS_settings paths noFailEnv (collect_settings sys fs0)
        scratchFS hjs rfl)
    · intro hjk
      exact hck _ (applyStage2FS_keybindings paths noFailEnv (collect_settings sys fs0)
        scratchFS hjk rfl)
    · intro hjsn
      rw [hm]
      exact hcsn _ rfl
    · exact hce _ rfl


theorem c1_witness :
    ∃ fs1 : FS,
      apply_settings paths0 noFailEnv (collect_settings "Linux" fsRich) scratchFS =
        .ok (fs1, true) ∧
      (collect_settings "Linux" fs1).settings = (collect_settings "Linux" fsRich).settings ∧
      (collect_settings "Linux" fs1).keybindings =
        (collect_settings "Linux" fsRich).keybindings ∧
      (collect_settings "Linux" fs1).snippets = (collect_settings "Linux" fsRich).snippets ∧
      (collect_settings "Linux" fs1).extensions = Json.arr [] := by
  obtain ⟨fs1, ha, hs, hk, hsn2, he⟩ := c1_round_trip "Linux" fsRich paths0
  exact ⟨fs1, ha, hs rfl, hk rfl, hsn2 rfl, he⟩

end CursorSync
